import Mathlib

/-!
Shallow embedding of the pyglossary core: the StarDict codec
(`pyglossary/plugins/stardict.py`), the sqlite-backed sortable entry list
(`pyglossary/sq_entry_list.py`), the IUPAC Goldbook reader
(`pyglossary/plugins/iupac_goldbook.py`) and the ZIM reader
(`pyglossary/plugins/zimfile.py`), together with proofs settling the
specification claims about them.

Python byte strings are modelled as `List Nat` (one natural number per
byte); Python `str` values are modelled as their UTF-8 byte lists where
they are encoded or decoded by the code under scrutiny, and as Lean
`String` where they flow through opaque text processing.  Machine
integers are `Nat` with an explicit `% 2 ^ 32` where the code packs them
into four bytes.
-/

namespace PyGlossary

/-- A byte string: one natural number per byte. -/
abbrev Bytes := List Nat

/-- Modelled from the spec (§4.1 `u32_be_to_bytes`): big-endian 4-byte
encoding of an unsigned 32-bit integer.  The helper
`pyglossary.text_utils.uint32ToBytes` is imported by `stardict.py` but its
source is not under `src/`. -/
def uint32ToBytes (n : Nat) : Bytes :=
  [n % 2 ^ 32 / 2 ^ 24, n % 2 ^ 24 / 2 ^ 16, n % 2 ^ 16 / 2 ^ 8, n % 2 ^ 8]

/-- Modelled from the spec (§4.1 `u32_be_from_bytes`): big-endian unsigned
integer from a byte string.  The helper
`pyglossary.text_utils.uint32FromBytes` is not under `src/`. -/
def uint32FromBytes (b : Bytes) : Nat :=
  b.foldl (fun acc x => acc * 256 + x) 0

theorem uint32FromBytes_uint32ToBytes (n : Nat) :
    uint32FromBytes (uint32ToBytes n) = n % 2 ^ 32 := by
  simp only [uint32ToBytes, uint32FromBytes, List.foldl]
  omega

theorem uint32ToBytes_length (n : Nat) : (uint32ToBytes n).length = 4 := rfl

/-- ASCII lowercasing of a single byte, as Python's `bytes.lower` does
byte by byte. -/
def byteLower (b : Nat) : Nat := if 65 ≤ b ∧ b ≤ 90 then b + 32 else b

/-- Python `b_word.lower()`: ASCII-lowercase every byte. -/
def bytesLower (w : Bytes) : Bytes := w.map byteLower

/-- `Writer.byteSortKey` (stardict.py line 566): the case-folded sort key
`(b_word.lower(), b_word)`. -/
def byteSortKey (w : Bytes) : Bytes × Bytes := (bytesLower w, w)

/-- Lexicographic `≤` on lists over a linear order, as Python compares
two `bytes` values. -/
def lexLe [LinearOrder α] : List α → List α → Bool
  | [], _ => true
  | _ :: _, [] => false
  | a :: as, b :: bs =>
    if a < b then true
    else if b < a then false
    else lexLe as bs

theorem lexLe_refl [LinearOrder α] (l : List α) : lexLe l l = true := by
  induction l with
  | nil => rfl
  | cons a t ih => simp [lexLe, ih]

theorem lexLe_total [LinearOrder α] (a b : List α) :
    lexLe a b = true ∨ lexLe b a = true := by
  induction a generalizing b with
  | nil => exact Or.inl rfl
  | cons x xs ih =>
    cases b with
    | nil => exact Or.inr rfl
    | cons y ys =>
      rcases lt_trichotomy x y with h | h | h
      · left; simp [lexLe, h]
      · subst h
        rcases ih ys with h2 | h2
        · left; simp [lexLe, h2]
        · right; simp [lexLe, h2]
      · right; simp [lexLe, h]

theorem lexLe_antisymm [LinearOrder α] {a b : List α}
    (hab : lexLe a b = true) (hba : lexLe b a = true) : a = b := by
  induction a generalizing b with
  | nil =>
    cases b with
    | nil => rfl
    | cons y ys => simp [lexLe] at hba
  | cons x xs ih =>
    cases b with
    | nil => simp [lexLe] at hab
    | cons y ys =>
      rcases lt_trichotomy x y with h | h | h
      · simp [lexLe, h, not_lt.mpr h.le, ne_of_gt h] at hba
      · subst h
        simp only [lexLe, lt_irrefl, if_false] at hab hba
        rw [ih hab hba]
      · simp [lexLe, h, not_lt.mpr h.le, ne_of_gt h] at hab

theorem lexLe_trans [LinearOrder α] {a b c : List α}
    (hab : lexLe a b = true) (hbc : lexLe b c = true) : lexLe a c = true := by
  induction a generalizing b c with
  | nil => rfl
  | cons x xs ih =>
    cases b with
    | nil => simp [lexLe] at hab
    | cons y ys =>
      cases c with
      | nil => simp [lexLe] at hbc
      | cons z zs =>
        rcases lt_trichotomy x y with hxy | hxy | hxy
        · rcases lt_trichotomy y z with hyz | hyz | hyz
          · simp [lexLe, hxy.trans hyz]
          · subst hyz; simp [lexLe, hxy]
          · simp [lexLe, hyz, not_lt.mpr hyz.le, ne_of_gt hyz] at hbc
        · subst hxy
          rcases lt_trichotomy x z with hyz | hyz | hyz
          · simp [lexLe, hyz]
          · subst hyz
            simp only [lexLe, lt_irrefl, if_false] at hab hbc ⊢
            exact ih hab hbc
          · simp [lexLe, hyz, not_lt.mpr hyz.le, ne_of_gt hyz] at hbc
        · simp [lexLe, hxy, not_lt.mpr hxy.le, ne_of_gt hxy] at hab

/-- Lexicographic `≤` on pairs of byte strings, as Python compares the
2-tuples returned by `byteSortKey`: lowered form first, raw bytes as
tiebreak. -/
def pairLe (x y : Bytes × Bytes) : Bool :=
  if x.1 = y.1 then lexLe x.2 y.2 else lexLe x.1 y.1

theorem pairLe_total (x y : Bytes × Bytes) :
    pairLe x y = true ∨ pairLe y x = true := by
  unfold pairLe
  by_cases h : x.1 = y.1
  · simp [h, lexLe_total]
  · have h' : ¬ y.1 = x.1 := fun hh => h hh.symm
    simp [h, h', lexLe_total]

theorem pairLe_trans {x y z : Bytes × Bytes}
    (hxy : pairLe x y = true) (hyz : pairLe y z = true) : pairLe x z = true := by
  unfold pairLe at hxy hyz ⊢
  by_cases h1 : x.1 = y.1 <;> by_cases h2 : y.1 = z.1
  · simp only [h1, h2, if_pos rfl] at *
    exact lexLe_trans hxy hyz
  · rw [if_pos h1] at hxy
    rw [if_neg h2] at hyz
    rw [h1, if_neg h2]
    exact hyz
  · rw [if_neg h1] at hxy
    rw [if_pos h2] at hyz
    rw [← h2, if_neg h1]
    exact hxy
  · rw [if_neg h1] at hxy
    rw [if_neg h2] at hyz
    by_cases h3 : x.1 = z.1
    · exact absurd (lexLe_antisymm hxy (h3 ▸ hyz)) h1
    · rw [if_neg h3]
      exact lexLe_trans hxy hyz

/-- The comparator Python uses in
`indexList.sort(key=lambda x: self.byteSortKey(x[0]))`
(writeIdxFile, writeSynFile): compare the case-folded keys of the first
components. -/
def sortKeyLe {β : Type _} (x y : Bytes × β) : Bool :=
  pairLe (byteSortKey x.1) (byteSortKey y.1)

theorem sortKeyLe_total {β : Type _} (x y : Bytes × β) :
    sortKeyLe x y = true ∨ sortKeyLe y x = true := pairLe_total _ _

theorem sortKeyLe_trans {β : Type _} {x y z : Bytes × β}
    (hxy : sortKeyLe x y = true) (hyz : sortKeyLe y z = true) :
    sortKeyLe x z = true := pairLe_trans hxy hyz

/-- Insert `a` into `l` just before the first element that `a` is at or
below; used to model stable sorting. -/
def insertSorted (le : α → α → Bool) (a : α) : List α → List α
  | [] => [a]
  | b :: l => if le a b then a :: b :: l else b :: insertSorted le a l

/-- Stable sort by the boolean preorder `le`.  Python's `list.sort` and
the SQLite `ORDER BY` scan modelled in this file are stable sorts; any
two stable sorts by the same total transitive preorder agree, so this
structural insertion sort is the extensional model of both. -/
def sortStable (le : α → α → Bool) : List α → List α
  | [] => []
  | a :: l => insertSorted le a (sortStable le l)

theorem insertSorted_perm (le : α → α → Bool) (a : α) (l : List α) :
    (insertSorted le a l).Perm (a :: l) := by
  induction l with
  | nil => exact List.Perm.refl _
  | cons b t ih =>
    by_cases h : le a b = true
    · simp [insertSorted, h]
    · simp only [insertSorted, h, Bool.false_eq_true, if_false]
      exact (ih.cons b).trans (List.Perm.swap a b t)

theorem sortStable_perm (le : α → α → Bool) (l : List α) :
    (sortStable le l).Perm l := by
  induction l with
  | nil => exact List.Perm.refl _
  | cons a t ih =>
    exact (insertSorted_perm le a (sortStable le t)).trans (ih.cons a)

theorem mem_insertSorted {le : α → α → Bool} {a c : α} {l : List α} :
    c ∈ insertSorted le a l ↔ c = a ∨ c ∈ l := by
  constructor
  · intro h
    have := (insertSorted_perm le a l).mem_iff.mp h
    simpa using this
  · intro h
    apply (insertSorted_perm le a l).mem_iff.mpr
    simpa using h

theorem insertSorted_eq_cons {le : α → α → Bool} {a : α} {l : List α}
    (h : ∀ c ∈ l, le a c = true) : insertSorted le a l = a :: l := by
  cases l with
  | nil => rfl
  | cons b t => simp [insertSorted, h b (List.mem_cons_self b t)]

theorem pairwise_insertSorted {le : α → α → Bool}
    (htrans : ∀ x y z, le x y = true → le y z = true → le x z = true)
    (htotal : ∀ x y, le x y = true ∨ le y x = true)
    {a : α} {l : List α} (hl : l.Pairwise (fun x y => le x y = true)) :
    (insertSorted le a l).Pairwise (fun x y => le x y = true) := by
  induction l with
  | nil => simp [insertSorted]
  | cons b t ih =>
    rcases List.pairwise_cons.mp hl with ⟨hb, ht⟩
    by_cases h : le a b = true
    · simp only [insertSorted, h, if_true]
      refine List.pairwise_cons.mpr ⟨?_, hl⟩
      intro c hc
      rcases List.mem_cons.mp hc with rfl | hc
      · exact h
      · exact htrans a b c h (hb c hc)
    · have hba : le b a = true := (htotal a b).resolve_left h
      simp only [insertSorted, h, Bool.false_eq_true, if_false]
      refine List.pairwise_cons.mpr ⟨?_, ih ht⟩
      intro c hc
      rcases mem_insertSorted.mp hc with rfl | hc
      · exact hba
      · exact hb c hc

theorem pairwise_sortStable {le : α → α → Bool}
    (htrans : ∀ x y z, le x y = true → le y z = true → le x z = true)
    (htotal : ∀ x y, le x y = true ∨ le y x = true)
    (l : List α) :
    (sortStable le l).Pairwise (fun x y => le x y = true) := by
  induction l with
  | nil => simp [sortStable]
  | cons a t ih => exact pairwise_insertSorted htrans htotal ih

theorem insertSorted_filter_neg {le : α → α → Bool} {p : α → Bool} {a : α}
    {l : List α} (ha : p a = false) :
    (insertSorted le a l).filter p = l.filter p := by
  induction l with
  | nil => simp [insertSorted, ha]
  | cons b t ih =>
    by_cases h : le a b = true
    · simp [insertSorted, h, List.filter, ha]
    · simp only [insertSorted, h, Bool.false_eq_true, if_false]
      simp [List.filter, ih]

theorem insertSorted_filter_pos {le : α → α → Bool} {p : α → Bool}
    (htrans : ∀ x y z, le x y = true → le y z = true → le x z = true)
    {a : α} {l : List α} (ha : p a = true)
    (hl : l.Pairwise (fun x y => le x y = true)) :
    (insertSorted le a l).filter p = insertSorted le a (l.filter p) := by
  induction l with
  | nil => simp [insertSorted, ha]
  | cons b t ih =>
    rcases List.pairwise_cons.mp hl with ⟨hb, ht⟩
    by_cases h : le a b = true
    · by_cases hpb : p b = true
      · simp [insertSorted, h, List.filter, ha, hpb]
      · have hpb' : p b = false := by simpa using hpb
        have hall : ∀ c ∈ t.filter p, le a c = true := by
          intro c hc
          exact htrans a b c h (hb c (List.mem_of_mem_filter hc))
        simp only [insertSorted, h, if_true]
        rw [List.filter_cons_of_pos ha, List.filter_cons_of_neg (by simp [hpb']),
          insertSorted_eq_cons hall]
    · simp only [insertSorted, h, Bool.false_eq_true, if_false]
      by_cases hpb : p b = true
      · rw [List.filter_cons_of_pos hpb, List.filter_cons_of_pos hpb, ih ht]
        simp [insertSorted, h]
      · have hpb' : p b = false := by simpa using hpb
        rw [List.filter_cons_of_neg (by simp [hpb']),
          List.filter_cons_of_neg (by simp [hpb']), ih ht]

theorem sortStable_filter {le : α → α → Bool} {p : α → Bool}
    (htrans : ∀ x y z, le x y = true → le y z = true → le x z = true)
    (htotal : ∀ x y, le x y = true ∨ le y x = true)
    (l : List α) :
    (sortStable le l).filter p = sortStable le (l.filter p) := by
  induction l with
  | nil => rfl
  | cons a t ih =>
    by_cases hpa : p a = true
    · simp only [sortStable]
      rw [insertSorted_filter_pos htrans hpa (pairwise_sortStable htrans htotal t),
        ih, List.filter_cons_of_pos hpa]
      rfl
    · have hpa' : p a = false := by simpa using hpa
      simp only [sortStable]
      rw [insertSorted_filter_neg hpa', ih, List.filter_cons_of_neg (by simp [hpa'])]

theorem sortStable_eq_self_of_ties {le : α → α → Bool} {l : List α}
    (h : ∀ x ∈ l, ∀ y ∈ l, le x y = true) : sortStable le l = l := by
  induction l with
  | nil => rfl
  | cons a t ih =>
    have ht : ∀ x ∈ t, ∀ y ∈ t, le x y = true := fun x hx y hy =>
      h x (List.mem_cons_of_mem a hx) y (List.mem_cons_of_mem a hy)
    have hall : ∀ c ∈ sortStable le t, le a c = true := by
      intro c hc
      exact h a (List.mem_cons_self a t) c
        (List.mem_cons_of_mem a ((sortStable_perm le t).mem_iff.mp hc))
    simp only [sortStable]
    rw [insertSorted_eq_cons hall, ih ht]

theorem sortStable_length (le : α → α → Bool) (l : List α) :
    (sortStable le l).length = l.length :=
  (sortStable_perm le l).length_eq

/-! ### StarDict writer (`stardict.py`, class `Writer`)

Entries are fed to the writer one at a time by the glossary engine; a
`data` input is a `DataEntry` (a resource blob saved under `res/`, with
no effect on the index), an `entry` input carries the headword list
`l_word`, the definition and its format, all UTF-8 encoded.  The
terminating `None` sentinel is the end of the input list. -/

inductive WInput where
  | data : WInput
  | entry (words : List Bytes) (defi : Bytes) (defiFormat : String) : WInput

/-- `Writer.fixDefi` with the default options
`stardict_client=False`, `audio_goldendict=False`: both rewrite branches
are skipped and the definition is returned unchanged. -/
def fixDefi (defi : Bytes) : Bytes := defi

/-- The state built by `Writer.writeCompact` / `writeGeneral`: the
`.dict` byte stream, the `.idx` records `(b_word, offset, length)` in the
order they are written (the writer emits them incrementally, one per
entry, as the entries arrive), the `altIndexList` of
`(b_alternate, entryIndex)` pairs, and `wordCount`. -/
structure CompactOut where
  dict : Bytes
  idx : List (Bytes × Nat × Nat)
  altIndexList : List (Bytes × Nat)
  wordCount : Nat

/-- `Writer.writeCompact` (stardict.py lines 654-716), from the current
`dictMark` and entry counter on: each non-data entry appends
`defi.encode("utf-8")` to `.dict` and one `(word, offset, length)` record
to `.idx`, and queues its aliases on `altIndexList`.  `words.headD []`
models `words[0]` (entry headword lists are non-empty, spec §3). -/
def writeCompactGo : List WInput → Nat → Nat → CompactOut
  | [], _, _ => { dict := [], idx := [], altIndexList := [], wordCount := 0 }
  | .data :: rest, dictMark, entryIndex => writeCompactGo rest dictMark entryIndex
  | .entry words defi _ :: rest, dictMark, entryIndex =>
    let bDictBlock := fixDefi defi
    let blockLen := bDictBlock.length
    let out := writeCompactGo rest (dictMark + blockLen) (entryIndex + 1)
    { dict := bDictBlock ++ out.dict
      idx := (words.headD [], dictMark, blockLen) :: out.idx
      altIndexList := (words.tail.map fun alt => (alt, entryIndex)) ++ out.altIndexList
      wordCount := out.wordCount + 1 }

/-- `Writer.writeCompact` starting from an empty `.dict` file. -/
def writeCompact (inputs : List WInput) : CompactOut :=
  writeCompactGo inputs 0 0

/-- Serialization of one `.idx` record:
`word + "\x00" + uint32ToBytes(offset) + uint32ToBytes(length)`. -/
def idxRecordBytes (r : Bytes × Nat × Nat) : Bytes :=
  r.1 ++ 0 :: (uint32ToBytes r.2.1 ++ uint32ToBytes r.2.2)

/-- The `.idx` file contents for a record list, in the given order. -/
def idxFileBytes (rs : List (Bytes × Nat × Nat)) : Bytes :=
  (rs.map idxRecordBytes).flatten

/-- `Writer.writeSynFile` (lines 788-817), sorting step: the
`altIndexList` is sorted by `byteSortKey` of the alternate word (a stable
`list.sort`). -/
def writeSynFileRecords (altIndexList : List (Bytes × Nat)) : List (Bytes × Nat) :=
  sortStable sortKeyLe altIndexList

/-- Serialization of one `.syn` record:
`alt + "\x00" + uint32ToBytes(entryIndex)`. -/
def synRecordBytes (r : Bytes × Nat) : Bytes :=
  r.1 ++ 0 :: uint32ToBytes r.2

/-- `Writer.writeSynFile`: with an empty `altIndexList` it returns at
once and no `.syn` file is written; otherwise the sorted records are
concatenated. -/
def writeSynFile (altIndexList : List (Bytes × Nat)) : Option Bytes :=
  if altIndexList.isEmpty then none
  else some ((writeSynFileRecords altIndexList).map synRecordBytes).flatten

/-- The state built by `Writer.writeCompactMergeSyns` /
`writeGeneralMergeSyns`: the `.dict` stream, the `idxBlockList` of
`(b_word, blockData)` pairs — one per headword *and* alias, all sharing
the entry's `blockData = uint32ToBytes(offset) + uint32ToBytes(length)` —
and the `altIndexList`, which these merge-mode writers never append to. -/
structure MergeOut where
  dict : Bytes
  idxBlockList : List (Bytes × Bytes)
  altIndexList : List (Bytes × Nat)

/-- `Writer.writeCompactMergeSyns` (lines 819-875), accumulation loop. -/
def writeCompactMergeSynsGo : List WInput → Nat → MergeOut
  | [], _ => { dict := [], idxBlockList := [], altIndexList := [] }
  | .data :: rest, dictMark => writeCompactMergeSynsGo rest dictMark
  | .entry words defi _ :: rest, dictMark =>
    let bDictBlock := fixDefi defi
    let blockLen := bDictBlock.length
    let blockData := uint32ToBytes dictMark ++ uint32ToBytes blockLen
    let out := writeCompactMergeSynsGo rest (dictMark + blockLen)
    { dict := bDictBlock ++ out.dict
      idxBlockList := (words.map fun w => (w, blockData)) ++ out.idxBlockList
      altIndexList := out.altIndexList }

/-- `defiFormat not in ("h", "m", "x")` fallback to `"m"` in the general
writers. -/
def normalizeDefiFormat (f : String) : String :=
  if f = "h" ∨ f = "m" ∨ f = "x" then f else "m"

/-- The single format letter prepended to a general-layout dict block. -/
def formatByte (f : String) : Nat :=
  if f = "h" then 104 else if f = "m" then 109 else 120

/-- `Writer.writeGeneralMergeSyns` (lines 877-940), accumulation loop:
the dict block is `(defiFormat + defi).encode("utf-8") + b"\x00"`. -/
def writeGeneralMergeSynsGo : List WInput → Nat → MergeOut
  | [], _ => { dict := [], idxBlockList := [], altIndexList := [] }
  | .data :: rest, dictMark => writeGeneralMergeSynsGo rest dictMark
  | .entry words defi defiFormat :: rest, dictMark =>
    let bDictBlock := formatByte (normalizeDefiFormat defiFormat) :: fixDefi defi ++ [0]
    let blockLen := bDictBlock.length
    let blockData := uint32ToBytes dictMark ++ uint32ToBytes blockLen
    let out := writeGeneralMergeSynsGo rest (dictMark + blockLen)
    { dict := bDictBlock ++ out.dict
      idxBlockList := (words.map fun w => (w, blockData)) ++ out.idxBlockList
      altIndexList := out.altIndexList }

/-- `Writer.writeIdxFile` (lines 942-964), sorting step: the
`(word, blockData)` list is sorted by `byteSortKey` of the word. -/
def writeIdxFileRecords (indexList : List (Bytes × Bytes)) : List (Bytes × Bytes) :=
  sortStable sortKeyLe indexList

/-- `Writer.writeIdxFile`: with an empty list no `.idx` file is written
and 0 is returned; otherwise the sorted records are written as
`key + "\x00" + value` and the record count is returned. -/
def writeIdxFile (indexList : List (Bytes × Bytes)) : Option Bytes × Nat :=
  if indexList.isEmpty then (none, 0)
  else
    (some ((writeIdxFileRecords indexList).map fun r => r.1 ++ 0 :: r.2).flatten,
      indexList.length)

/-- `Writer.writeIfoFile` (lines 966-1024): the ordered `key=value` pairs
of the `.ifo` file.  Access to the glossary info object (`glos.getInfo`,
language codes) is outside `src/`; the already-assembled `bookname`, the
values of the remaining `infoKeys` (`author`, `email`, `website`,
`date` — each skipped when empty) and the assembled `description` are
abstracted as parameters.  `sametypesequence` is written only when
`defiFormat` is non-empty, `synwordcount` only when `synWordCount > 0`. -/
def writeIfoFile (bookname : String) (wordCount idxFileSize synWordCount : Nat)
    (defiFormat : String) (author email website date description : String) :
    List (String × String) :=
  [("version", "3.0.0"), ("bookname", bookname),
    ("wordcount", toString wordCount), ("idxfilesize", toString idxFileSize)]
  ++ (if defiFormat = "" then [] else [("sametypesequence", defiFormat)])
  ++ (if synWordCount > 0 then [("synwordcount", toString synWordCount)] else [])
  ++ (if author = "" then [] else [("author", author)])
  ++ (if email = "" then [] else [("email", email)])
  ++ (if website = "" then [] else [("website", website)])
  ++ (if date = "" then [] else [("date", date)])
  ++ [("description", description)]

/-- Modelled from the spec (§4.4 auto-select):
`glos.collectDefiFormat(100)` is not under `src/`; per the spec it
samples the first 100 entries' definition formats and reports the
fraction each format got, with a falsy result when there are no
entries. -/
def collectDefiFormat (formats : List String) : Option (String → ℚ) :=
  let sample := formats.take 100
  if sample.isEmpty then none
  else some fun f => ((sample.count f : ℚ) / (sample.length : ℚ))

/-- `Writer.open` (lines 602-613): the `sametypesequence` value after
auto-selection.  `opt` is the configured option (`none` models Python
`None`, which disables auto-selection), `formats` the definition formats
of the glossary's entries in order. -/
def autoSelectSametypesequence (opt : Option String) (formats : List String) :
    Option String :=
  match opt with
  | none => none
  | some s =>
    if s = "" then
      match collectDefiFormat formats with
      | none => some ""
      | some stat =>
        if stat "m" > 97 / 100 then some "m"
        else if stat "h" > 1 / 2 then some "h"
        else some ""
    else some s

/-! ### StarDict reader (`stardict.py`, class `Reader`) -/

/-- `idxBytes.find(b"\x00", beg)` followed by the slice up to it: split
the byte string at the first NUL, returning the prefix and the bytes
after the NUL, or nothing when there is no NUL. -/
def splitNul : Bytes → Option (Bytes × Bytes)
  | [] => none
  | b :: bs =>
    if b = 0 then some ([], bs)
    else (splitNul bs).map fun r => (b :: r.1, r.2)

theorem splitNul_length {bs w r : Bytes} (h : splitNul bs = some (w, r)) :
    r.length < bs.length := by
  induction bs generalizing w r with
  | nil => simp [splitNul] at h
  | cons b t ih =>
    by_cases hb : b = 0
    · simp [splitNul, hb] at h
      rcases h with ⟨rfl, rfl⟩
      simp only [List.length_cons]
      omega
    · simp only [splitNul, hb, if_false, Option.map_eq_some'] at h
      obtain ⟨⟨w', r'⟩, hsplit, heq⟩ := h
      cases heq
      exact Nat.lt_succ_of_lt (ih hsplit)

theorem splitNul_append {w : Bytes} (r : Bytes) (hw : 0 ∉ w) :
    splitNul (w ++ 0 :: r) = some (w, r) := by
  induction w with
  | nil => simp [splitNul]
  | cons b t ih =>
    have hb : b ≠ 0 := fun h => hw (h ▸ List.mem_cons_self b t)
    have ih' := ih fun h => hw (List.mem_cons_of_mem b h)
    simp only [List.cons_append, splitNul, hb, if_false, List.append_eq]
    rw [ih']
    rfl

theorem splitNul_spec {bs w r : Bytes} (h : splitNul bs = some (w, r)) :
    bs = w ++ 0 :: r ∧ 0 ∉ w := by
  induction bs generalizing w r with
  | nil => simp [splitNul] at h
  | cons b t ih =>
    by_cases hb : b = 0
    · subst hb
      simp [splitNul] at h
      rcases h with ⟨rfl, rfl⟩
      simp
    · simp only [splitNul, hb, if_false, Option.map_eq_some'] at h
      obtain ⟨⟨w', r'⟩, hsplit, heq⟩ := h
      cases heq
      obtain ⟨hbs, hmem⟩ := ih hsplit
      constructor
      · simp [hbs]
      · intro hc
        rcases List.mem_cons.mp hc with hc | hc
        · exact hb hc.symm
        · exact hmem hc

/-- `Reader.readIdxFile` (lines 213-240), parsing loop: at each position
the word runs up to the next NUL, then 8 bytes give the big-endian
`(offset, size)`.  A missing NUL or a short tail is logged as a corrupted
index and parsing stops there. -/
def readIdxFile (bs : Bytes) : List (Bytes × Nat × Nat) :=
  match h : splitNul bs with
  | none => []
  | some (w, rest) =>
    if 8 ≤ rest.length then
      (w, uint32FromBytes (rest.take 4), uint32FromBytes ((rest.drop 4).take 4))
        :: readIdxFile (rest.drop 8)
    else []
termination_by bs.length
decreasing_by
  calc (rest.drop 8).length ≤ rest.length := by simp
    _ < bs.length := splitNul_length h

/-- `Reader.readSynFile` (lines 405-445), parsing loop: alternates run up
to a NUL, then 4 bytes give the big-endian entry index; a missing NUL or
short tail stops parsing. -/
def readSynFileRecords (bs : Bytes) : List (Bytes × Nat) :=
  match h : splitNul bs with
  | none => []
  | some (w, rest) =>
    if 4 ≤ rest.length then
      (w, uint32FromBytes (rest.take 4)) :: readSynFileRecords (rest.drop 4)
    else []
termination_by bs.length
decreasing_by
  calc (rest.drop 4).length ≤ rest.length := by simp
    _ < bs.length := splitNul_length h

/-- `Reader.readSynFile`: records whose `entryIndex` is at or beyond
`wordCount` are dropped with a log (`continue`); the remaining records,
in file order, feed `synDict`. -/
def readSynFile (bs : Bytes) (wordCount : Nat) : List (Bytes × Nat) :=
  (readSynFileRecords bs).filter fun r => r.2 < wordCount

/-- `synDict[entryIndex]`: the alternates attached to one entry, in file
order (an absent key is the empty list). -/
def synDictLookup (syn : List (Bytes × Nat)) (i : Nat) : List Bytes :=
  (syn.filter fun r => r.2 = i).map (·.1)

/-- `bytes([t]).islower()` for a single byte. -/
def isLowerByte (t : Nat) : Bool := 97 ≤ t && t ≤ 122

/-- `bytes([t]).isupper()` for a single byte. -/
def isUpperByte (t : Nat) : Bool := 65 ≤ t && t ≤ 90

/-- `bytes([t]).isalpha()` for a single byte. -/
def isAlphaByte (t : Nat) : Bool := isLowerByte t || isUpperByte t

/-- `b_block.find(b"\x00", beg)`: index of the first NUL at or after
`beg`, or nothing (Python's `-1`). -/
def findNul (bs : Bytes) (beg : Nat) : Option Nat :=
  ((bs.drop beg).findIdx? (· = 0)).map (· + beg)

/-- The loop of `Reader.parseDefiBlockCompact` (lines 447-495) over every
letter of `sametypesequence` but the last, carrying the cursor `i` into
the block: a lowercase letter takes the NUL-terminated slice at `i`, an
uppercase one a 4-byte big-endian length-prefixed slice; each bound-check
failure returns `none`.  (The Python `assert isupper` for a
non-alphabetic letter is not modelled; theorems assume alphabetic
sequences, which `verifySameTypeSequence` enforces at `open`.) -/
def parseCompactInit (block : Bytes) : Nat → List Nat → Option (List (Bytes × Nat) × Nat)
  | i, [] => some ([], i)
  | i, t :: ts =>
    if block.length ≤ i then none
    else if isLowerByte t then
      match findNul block i with
      | none => none
      | some j =>
        (parseCompactInit block (j + 1) ts).map fun r =>
          (((block.drop i).take (j - i), t) :: r.1, r.2)
    else
      if block.length < i + 4 then none
      else
        let size := uint32FromBytes ((block.drop i).take 4)
        if block.length < i + 4 + size then none
        else
          (parseCompactInit block (i + 4 + size) ts).map fun r =>
            (((block.drop (i + 4)).take size, t) :: r.1, r.2)

/-- `Reader.parseDefiBlockCompact`: after the initial letters, the last
letter of the sequence takes the whole remaining block, which must be
non-empty, and for a lowercase letter must contain no NUL; any failed
check makes the whole block corrupt (`None`). -/
def parseDefiBlockCompact (block : Bytes) (seq : Bytes) : Option (List (Bytes × Nat)) :=
  match seq with
  | [] => none
  | _ :: _ =>
    match parseCompactInit block 0 seq.dropLast with
    | none => none
    | some (res, i) =>
      if block.length ≤ i then none
      else
        let t := seq.getLastD 0
        if isLowerByte t then
          if 0 ∈ block.drop i then none
          else some (res ++ [(block.drop i, t)])
        else some (res ++ [(block.drop i, t)])

theorem findNul_bounds {bs : Bytes} {beg j : Nat} (h : findNul bs beg = some j) :
    beg ≤ j ∧ j < bs.length := by
  simp only [findNul, Option.map_eq_some'] at h
  obtain ⟨k, hk, rfl⟩ := h
  have hlt : k < (bs.drop beg).length := List.findIdx?_eq_some_iff_findIdx_eq.mp hk |>.1
  rw [List.length_drop] at hlt
  omega

/-- `Reader.parseDefiBlockGeneral` (lines 497-529), loop body from cursor
`i`: each part is a 1-byte type letter (must be alphabetic) followed by a
NUL-terminated slice (lowercase) or a 4-byte big-endian length-prefixed
slice (uppercase); any failed check corrupts the whole block. -/
def parseGeneralGo (block : Bytes) (i : Nat) : Option (List (Bytes × Nat)) :=
  if hle : block.length ≤ i then some []
  else
    let t := block.getD i 0
    if isAlphaByte t = false then none
    else if isLowerByte t then
      match hfind : findNul block (i + 1) with
      | none => none
      | some j =>
        (parseGeneralGo block (j + 1)).map fun r =>
          (((block.drop (i + 1)).take (j - (i + 1)), t) :: r)
    else
      if block.length < i + 5 then none
      else
        let size := uint32FromBytes ((block.drop (i + 1)).take 4)
        if block.length < i + 5 + size then none
        else
          (parseGeneralGo block (i + 5 + size)).map fun r =>
            (((block.drop (i + 5)).take size, t) :: r)
termination_by block.length - i
decreasing_by
  · have := findNul_bounds hfind
    omega
  · omega

/-- `Reader.parseDefiBlockGeneral`. -/
def parseDefiBlockGeneral (block : Bytes) : Option (List (Bytes × Nat)) :=
  parseGeneralGo block 0

/-- The defi-format tag of a raw part type letter
(`decodeRawDefiPart`): `m/t/y → "m"`, `g/h → "h"`, `x → "x"`, anything
else the empty string (logged as unsupported). -/
def formatOfType (t : Nat) : String :=
  if t = 109 ∨ t = 116 ∨ t = 121 then "m"
  else if t = 103 ∨ t = 104 then "h"
  else if t = 120 then "x"
  else ""

/-- `Reader.decodeRawDefiPart` (lines 242-288): returns
`(format, defi)`.  UTF-8 decoding is the identity in the byte model; the
XDXF transformer is the abstract `xdxfToHtml`, applied when the format is
`x` and the `xdxf_to_html` option is on. -/
def decodeRawDefiPart (xdxfToHtml : Bytes → Bytes) (xdxfFlag : Bool)
    (part : Bytes × Nat) : String × Bytes :=
  let f := formatOfType part.2
  if f = "x" ∧ xdxfFlag = true then ("h", xdxfToHtml part.1)
  else (f, part.1)

/-- `"\n<hr>"` as bytes. -/
def nlHr : Bytes := [10, 60, 104, 114, 62]

/-- `"\n<hr>\n"` as bytes. -/
def nlHrNl : Bytes := [10, 60, 104, 114, 62, 10]

/-- `"<br/>"` as bytes. -/
def brSlash : Bytes := [60, 98, 114, 47, 62]

/-- `"<pre>"` as bytes. -/
def preOpen : Bytes := [60, 112, 114, 101, 62]

/-- `"</pre>"` as bytes. -/
def preClose : Bytes := [60, 47, 112, 114, 101, 62]

/-- `Reader.renderRawDefiList` (lines 290-336): a single part is decoded
directly; several parts of one format are joined (`"\n<hr>"` for HTML,
`"\n"` otherwise); mixed formats are converted to HTML (plaintext wrapped
in `<pre>` with newlines as `<br/>`, XDXF transformed) and joined by
`"\n<hr>\n"` with final format `h`.  Returns `(defi, format)`. -/
def renderRawDefiList (xdxfToHtml : Bytes → Bytes) (xdxfFlag : Bool)
    (parts : List (Bytes × Nat)) : Bytes × String :=
  match parts with
  | [p] =>
    let fd := decodeRawDefiPart xdxfToHtml xdxfFlag p
    (fd.2, fd.1)
  | _ =>
    let defisWithFormat := parts.map (decodeRawDefiPart xdxfToHtml xdxfFlag)
    let formatSet := (defisWithFormat.map (·.1)).dedup
    if formatSet.length = 1 then
      let f := formatSet.headD ""
      if f = "h" then (List.intercalate nlHr (defisWithFormat.map (·.2)), f)
      else (List.intercalate [10] (defisWithFormat.map (·.2)), f)
    else if formatSet.length = 0 then ([], "")
    else
      let defis := defisWithFormat.map fun fd =>
        if fd.1 = "m" then
          preOpen ++ (fd.2.flatMap fun b => if b = 10 then brSlash else [b]) ++ preClose
        else if fd.1 = "x" then xdxfToHtml fd.2
        else fd.2
      (List.intercalate nlHrNl defis, "h")

/-- `Reader.__iter__` (lines 338-403), the word loop with the running
`entryIndex`: an empty word is skipped; the definition block is the
`defiSize` bytes at `defiOffset` of the dict file (a short read skips the
record); a corrupt block (`parseDefiBlock… = None`) is logged and the
record skipped, iteration continuing with the next one; otherwise the
rendered entry carries `[word] + synDict[entryIndex]` as its word list.
Emitted entries are `(l_word, defi, defiFormat)` triples. -/
def readerIterGo (xdxfToHtml : Bytes → Bytes) (xdxfFlag : Bool) (dict : Bytes)
    (syn : List (Bytes × Nat)) (seq : Bytes) :
    List (Bytes × Nat × Nat) → Nat → List (List Bytes × Bytes × String)
  | [], _ => []
  | (bWord, defiOffset, defiSize) :: rest, entryIndex =>
    let tail := readerIterGo xdxfToHtml xdxfFlag dict syn seq rest (entryIndex + 1)
    if bWord = [] then tail
    else
      let block := (dict.drop defiOffset).take defiSize
      if block.length ≠ defiSize then tail
      else
        match
          (if seq.isEmpty then parseDefiBlockGeneral block
            else parseDefiBlockCompact block seq) with
        | none => tail
        | some rawDefiList =>
          let words := bWord :: synDictLookup syn entryIndex
          let r := renderRawDefiList xdxfToHtml xdxfFlag rawDefiList
          (words, r.1, r.2) :: tail

/-- `Reader.__iter__` over the whole index. -/
def readerIter (xdxfToHtml : Bytes → Bytes) (xdxfFlag : Bool)
    (indexData : List (Bytes × Nat × Nat)) (dict : Bytes)
    (syn : List (Bytes × Nat)) (seq : Bytes) :
    List (List Bytes × Bytes × String) :=
  readerIterGo xdxfToHtml xdxfFlag dict syn seq indexData 0

/-! ### Sortable entry store (`sq_entry_list.py`, class `SqEntryList`)

Entries are an abstract type `α`; the sqlite column values an abstract
linearly ordered type `κ`.  A sort key is, as in the source, a list of
`(column-name, column-type, valueFunc)` tuples; `valueFunc` is modelled
directly on the entry (the source applies it to `entry.l_word`).  Rows
live in the `data` table in `rowid` (= insertion) order, each carrying
its column values and the pickled entry, modelled as the entry itself
(pickling round-trips). -/

/-- The `_orderBy` field: `"rowid"` until `sort` is called, then the
column-name list, each column with `DESC` when reversed. -/
inductive OrderBy where
  | rowid
  | columnsAsc
  | columnsDesc
deriving DecidableEq

/-- The mutable state of a `SqEntryList`. -/
structure SqEntryList (α κ : Type) where
  rows : List (List κ × α)
  orderBy : OrderBy
  sortedFlag : Bool
  reverse : Bool
  len : Nat
  sqliteSortKey : Option (List (String × String × (α → κ)))

/-- A freshly constructed `SqEntryList` (`__init__`): empty table,
`_orderBy = "rowid"`, not sorted, no sort key. -/
def SqEntryList.init (α κ : Type) : SqEntryList α κ :=
  { rows := [], orderBy := .rowid, sortedFlag := false, reverse := false,
    len := 0, sqliteSortKey := none }

/-- `SqEntryList.setSortKey` (lines 72-100): raises
`RuntimeError("Called setSortKey twice")` when a sort key is already
set. -/
def SqEntryList.setSortKey (s : SqEntryList α κ)
    (key : List (String × String × (α → κ))) :
    Except String (SqEntryList α κ) :=
  if s.sqliteSortKey.isSome then .error "Called setSortKey twice"
  else .ok { s with sqliteSortKey := some key }

/-- `SqEntryList.append` (lines 105-127): evaluates every column's
`valueFunc` on the entry and inserts the row.  There is no check of the
sorted flag — appending after `sort` is not rejected.  Calling it before
`setSortKey` crashes (`len(None)`), modelled as an error. -/
def SqEntryList.append (s : SqEntryList α κ) (e : α) :
    Except String (SqEntryList α κ) :=
  match s.sqliteSortKey with
  | none => .error "TypeError: object of type NoneType has no len()"
  | some key =>
    .ok { s with
          rows := s.rows ++ [((key.map fun col => col.2.2 e), e)]
          len := s.len + 1 }

/-- `SqEntryList.sort` (lines 134-150): raises
`NotImplementedError("can not sort more than once")` on a second call;
otherwise records the direction and switches `_orderBy` from `"rowid"`
to the key columns (each `DESC` when reversed). -/
def SqEntryList.sort (s : SqEntryList α κ) (reverse : Bool) :
    Except String (SqEntryList α κ) :=
  if s.sortedFlag then .error "can not sort more than once"
  else
    .ok { s with
          sortedFlag := true
          reverse := reverse
          orderBy := if reverse then .columnsDesc else .columnsAsc }

/-- Modelled from the spec (§4.2, §5): the sqlite engine executing
`SELECT pickle FROM data ORDER BY …` is not part of this repository; per
the spec the scan is a stable ordered scan — rows ordered by the key
columns compared lexicographically (each column descending under
`DESC`), rows with equal keys staying in `rowid` (= insertion) order.
`ORDER BY rowid` is the insertion order itself. -/
def selectRows [LinearOrder κ] (rows : List (List κ × α)) :
    OrderBy → List (List κ × α)
  | .rowid => rows
  | .columnsAsc => sortStable (fun a b => lexLe a.1 b.1) rows
  | .columnsDesc => sortStable (fun a b => lexLe b.1 a.1) rows

/-- `SqEntryList.__iter__` (lines 201-209): yield the un-pickled entries
of `SELECT pickle FROM data ORDER BY {orderBy}`.  There is no phase
check — iterating before `sort` scans in `rowid` order. -/
def SqEntryList.iterEntries [LinearOrder κ] (s : SqEntryList α κ) : List α :=
  (selectRows s.rows s.orderBy).map (·.2)

/-- The column values the store computes for an entry. -/
def sqKeyOf {α κ : Type} (key : List (String × String × (α → κ))) (e : α) :
    List κ :=
  key.map fun col => col.2.2 e

/-- The normal lifecycle: set the key, append every entry, sort once,
iterate. -/
def runStore {α κ : Type} [LinearOrder κ]
    (key : List (String × String × (α → κ)))
    (entries : List α) (reverse : Bool) : Except String (List α) := do
  let s ← (SqEntryList.init α κ).setSortKey key
  let s ← entries.foldlM SqEntryList.append s
  let s ← s.sort reverse
  pure s.iterEntries

/-! ### ZIM reader (`zimfile.py`, class `Reader`)

One archive entry, as seen through the external `libzim` handle: its
title, redirect flag and target, content bytes, and the result of the
`mimetype` accessor — `none` models the `RuntimeError` it can raise.
UTF-8 decoding of HTML/plain content and the `src="../I/"` rewrite are
abstract functions. -/

structure ZimEntry where
  title : String
  isRedirect : Bool
  redirectTitle : String
  content : Bytes
  mimetype : Option String

/-- What one loop iteration of `Reader.__iter__` yields. -/
inductive ZimOut where
  | entry (word : String) (defi : String) (defiFormat : String)
  | dataEntry (name : String) (content : Bytes)
  | noEntry
deriving DecidableEq

/-- `Reader.resourceMimeTypes`. -/
def resourceMimeTypes : List String :=
  ["image/png", "image/jpeg", "image/gif", "image/svg+xml", "image/webp",
    "image/x-icon", "text/css", "text/javascript", "application/javascript",
    "application/json", "application/octet-stream",
    "application/octet-stream+xapian", "application/x-chrome-extension",
    "application/warc-headers", "application/font-woff"]

/-- `mimetype.startswith("text/html")`: structural prefix test,
extensionally `String.startsWith`. -/
def strStartsWith (s pre : String) : Bool :=
  pre.data.isPrefixOf s.data

/-- `Reader.__iter__` (zimfile.py lines 129-153): the branches that read
the `mimetype` variable — `text/html`, `text/plain`, the resource
whitelist with the file-name-length guard, and the final data-entry
yield. -/
def zimProcessMime (fNamemax : Nat) (utf8Decode : Bytes → String)
    (replaceImgSrc : String → String) (e : ZimEntry) (mimetype : String) :
    List ZimOut :=
  if strStartsWith mimetype "text/html" then
    [.entry e.title (replaceImgSrc (utf8Decode e.content)) "h"]
  else if mimetype = "text/plain" then
    [.entry e.title (utf8Decode e.content) "m"]
  else
    -- a mimetype outside resourceMimeTypes is only logged; then:
    if e.title.length > fNamemax then []  -- fileNameTooLong: skipped
    else [.dataEntry e.title e.content]

/-- One iteration of the `Reader.__iter__` loop (zimfile.py lines
93-153).  `lastMime` is the Python local `mimetype` from the previous
iteration (`none` when it was never assigned).  On a redirect the entry
links to the target; empty content yields the bare `None`.  When the
`mimetype` accessor raises `RuntimeError`, the entry is counted and
yielded as a data entry — and then, with no `continue`, control falls
through to the branches that read `mimetype`, which still holds the
previous iteration's value or is unbound (`UnboundLocalError`). -/
def zimStep (fNamemax : Nat) (utf8Decode : Bytes → String)
    (replaceImgSrc : String → String) (e : ZimEntry) (lastMime : Option String) :
    Except String (List ZimOut × Option String) :=
  if e.isRedirect then
    .ok ([.entry e.title
      ("Redirect: <a href=\"bword://" ++ e.redirectTitle ++ "\">"
        ++ e.redirectTitle ++ "</a>") "h"], lastMime)
  else if e.content.isEmpty then .ok ([.noEntry], lastMime)
  else
    match e.mimetype with
    | some m =>
      .ok (zimProcessMime fNamemax utf8Decode replaceImgSrc e m, some m)
    | none =>
      match lastMime with
      | none => .error "UnboundLocalError: mimetype"
      | some m =>
        .ok (.dataEntry e.title e.content
          :: zimProcessMime fNamemax utf8Decode replaceImgSrc e m, some m)

/-- The whole `Reader.__iter__` loop over the archive's entries. -/
def zimIter (fNamemax : Nat) (utf8Decode : Bytes → String)
    (replaceImgSrc : String → String) :
    List ZimEntry → Option String → Except String (List ZimOut)
  | [], _ => .ok []
  | e :: rest, lastMime =>
    match zimStep fNamemax utf8Decode replaceImgSrc e lastMime with
    | .error msg => .error msg
    | .ok (outs, lm) =>
      (zimIter fNamemax utf8Decode replaceImgSrc rest lm).map (outs ++ ·)

/-! ### IUPAC Goldbook reader (`iupac_goldbook.py`, class `Reader`)

One `<entry>` element of the XML file, as seen after the lxml layer:
each field is the relevant child element's extracted text, `none` when
the element is absent.  `term` is the `getTerm` extraction of the
`<term>` child when present. -/

structure GoldbookEntry where
  entryId : Option String := none
  code : Option String := none
  term : Option String := none
  identTerm : Option String := none
  identSynonym : Option String := none
  definitionText : Option String := none
  definitionEntries : List String := []
  replacedby : Option String := none
  relatedList : List String := []
  lastupdated : Option String := none
  url : Option String := none

/-- Phase 1 (`Reader.open`, lines 45-84): the `termByCode` dict built by
one full streaming pass before any entry is emitted, skipping entries
without a `<term>` or `<code>`; assignment in file order, a later entry
overwriting an earlier one with the same code.  The dict is represented
by its lookup: later entries take precedence. -/
def termByCode : List GoldbookEntry → String → Option String
  | [], _ => none
  | e :: rest, c =>
    match termByCode rest c with
    | some t => some t
    | none =>
      match e.term, e.code with
      | some t, some c' => if c' = c then some t else none
      | _, _ => none

/-- `text.split(".")` / `text.split("/")`: split a character list on a
separator. -/
def splitCharList (sep : Char) : List Char → List (List Char)
  | [] => [[]]
  | c :: rest =>
    let r := splitCharList sep rest
    if c = sep then [] :: r
    else
      match r with
      | [] => [[c]]
      | h :: t => (c :: h) :: t

/-- `replacedby.split(".")[-1]` (a `split` result is never empty). -/
def lastDotSegment (s : String) : String :=
  String.mk ((splitCharList (Char.ofNat 46) s.data).getLastD s.data)

/-- `relatedURL.split("/")[-1]`. -/
def lastSlashSegment (s : String) : String :=
  String.mk ((splitCharList (Char.ofNat 47) s.data).getLastD s.data)

/-- The `Replaced by:` definition part (lines 194-204): the last
dot-segment of the `<replacedby>` text is looked up in `termByCode`;
only when the code is missing from the map (`is None`) does the link
fall back to the raw code. -/
def replacedbyPart (lookup : String → Option String) (r : String) : String :=
  let c := lastDotSegment r
  let t := (lookup c).getD c
  "Replaced by: <a href=\"bword://" ++ t ++ "\">" ++ t ++ "</a>"

/-- The `Related:` definition part (lines 206-219); here the fallback
also triggers on an empty term (`if not relatedTerm`). -/
def relatedPart (lookup : String → Option String) (urls : List String) : String :=
  "Related: " ++ String.intercalate ", " (urls.map fun u =>
    let c := lastSlashSegment u
    let t := match lookup c with
      | some t => if t = "" then c else t
      | none => c
    "<a href=\"bword://" ++ t ++ "\">" ++ t ++ "</a>")

/-- The `<ol>` list built from `definition/entry` children (lines
181-192), skipping empty texts. -/
def olHtml (items : List String) : String :=
  "<ol>" ++ String.join (items.filterMap fun s =>
    if s = "" then none else some ("<li>" ++ s ++ "</li>")) ++ "</ol>"

/-- The definition parts of one entry (`Reader.__iter__`, lines
173-227), in order: definition text (when non-empty), the `<ol>` of
definition sub-entries, `Replaced by:`, `Related:`, `Last updated:` and
the `More info.` link. -/
def entryDefiParts (lookup : String → Option String) (e : GoldbookEntry) :
    List String :=
  (match e.definitionText with
    | some d => if d = "" then [] else [d]
    | none => [])
  ++ (if e.definitionEntries.isEmpty then [] else [olHtml e.definitionEntries])
  ++ (match e.replacedby with
    | some r => [replacedbyPart lookup r]
    | none => [])
  ++ (if e.relatedList.isEmpty then [] else [relatedPart lookup e.relatedList])
  ++ (match e.lastupdated with
    | some lu => ["Last updated: " ++ lu]
    | none => [])
  ++ (match e.url with
    | some u => ["<a href=\"" ++ u ++ "\">More info.</a>"]
    | none => [])

/-- The headword list of one emitted entry (lines 156-171): term, code,
`identifiers/term`, `identifiers/synonym`, skipping empties. -/
def goldbookWords (t c : String) (e : GoldbookEntry) : List String :=
  (if t = "" then [] else [t]) ++ (if c = "" then [] else [c])
  ++ (match e.identTerm with
    | some s => if s = "" then [] else [s]
    | none => [])
  ++ (match e.identSynonym with
    | some s => if s = "" then [] else [s]
    | none => [])

/-- The definition string: parts joined by `<br/>`, with a blank spacer
inserted after the first part when more than one follows (lines
229-233). -/
def goldbookDefi (lookup : String → Option String) (e : GoldbookEntry) : String :=
  let parts := entryDefiParts lookup e
  let parts := if parts.length > 1 then parts.take 1 ++ [""] ++ parts.drop 1
    else parts
  String.intercalate "<br/>" parts

/-- Phase 2 (`Reader.__iter__`): emit one `(words, defi)` pair per entry
that has a `<code>` and a `<term>`, in document order, using the
completed phase-1 map. -/
def goldbookIter (entries : List GoldbookEntry) : List (List String × String) :=
  let lookup := termByCode entries
  entries.filterMap fun e =>
    match e.code with
    | none => none
    | some c =>
      match e.term with
      | none => none
      | some t => some (goldbookWords t c e, goldbookDefi lookup e)

/-! ### Helper lemmas for the writer claims -/

/-- The index records per entry, summed over a writer input stream: one
per headword and alias of each non-data entry. -/
theorem writeCompactMergeSynsGo_alt (inputs : List WInput) (dm : Nat) :
    (writeCompactMergeSynsGo inputs dm).altIndexList = [] := by
  induction inputs generalizing dm with
  | nil => rfl
  | cons i rest ih =>
    cases i with
    | data => exact ih dm
    | entry words defi f => simp [writeCompactMergeSynsGo, ih]

theorem writeGeneralMergeSynsGo_alt (inputs : List WInput) (dm : Nat) :
    (writeGeneralMergeSynsGo inputs dm).altIndexList = [] := by
  induction inputs generalizing dm with
  | nil => rfl
  | cons i rest ih =>
    cases i with
    | data => exact ih dm
    | entry words defi f => simp [writeGeneralMergeSynsGo, ih]

theorem writeCompactMergeSynsGo_idx_length (inputs : List WInput) (dm : Nat) :
    (writeCompactMergeSynsGo inputs dm).idxBlockList.length
      = (inputs.map fun i => match i with
          | .data => 0
          | .entry words _ _ => words.length).sum := by
  induction inputs generalizing dm with
  | nil => rfl
  | cons i rest ih =>
    cases i with
    | data => simpa [writeCompactMergeSynsGo] using ih dm
    | entry words defi f => simp [writeCompactMergeSynsGo, ih]

theorem writeGeneralMergeSynsGo_idx_length (inputs : List WInput) (dm : Nat) :
    (writeGeneralMergeSynsGo inputs dm).idxBlockList.length
      = (inputs.map fun i => match i with
          | .data => 0
          | .entry words _ _ => words.length).sum := by
  induction inputs generalizing dm with
  | nil => rfl
  | cons i rest ih =>
    cases i with
    | data => simpa [writeGeneralMergeSynsGo] using ih dm
    | entry words defi f => simp [writeGeneralMergeSynsGo, ih]

theorem writeIdxFile_count (indexList : List (Bytes × Bytes)) :
    (writeIdxFile indexList).2 = indexList.length := by
  unfold writeIdxFile
  by_cases h : indexList.isEmpty
  · simp [h, List.isEmpty_iff.mp h]
  · simp [h]

theorem synwordcount_not_mem_writeIfoFile
    (bookname : String) (wc ifs : Nat) (df author email website date
      description v : String) :
    ("synwordcount", v)
      ∉ writeIfoFile bookname wc ifs 0 df author email website date
          description := by
  unfold writeIfoFile
  split_ifs <;> simp_all

/-! ### The claims -/

/-- **C1, counterexample.**  The claim says the `.idx` a StarDict writer
produces is sorted by the case-folded byte key for *every* entry stream,
with the sorting happening after the sentinel.  In the non-merge layouts
(`writeCompact`, `writeGeneral`) the `.idx` records are written
incrementally, one per arriving entry, and never sorted: feeding the
words `b"b"` then `b"a"` leaves the index in arrival order, which
violates the case-folded order. -/
theorem claim_C1_counterexample :
    (writeCompact [WInput.entry [[98]] [49] "h",
        WInput.entry [[97]] [50] "h"]).idx
      = [([98], 0, 1), ([97], 1, 1)]
    ∧ ¬ ((writeCompact [WInput.entry [[98]] [49] "h",
          WInput.entry [[97]] [50] "h"]).idx.map (fun r => r.1)).Pairwise
        (fun a b => pairLe (byteSortKey a) (byteSortKey b) = true) := by
  constructor
  · rfl
  · decide

/-- **C1, amended.**  What the code does sort, it sorts correctly and
after the sentinel: `writeIdxFile` (the merge-syns `.idx`) and
`writeSynFile` (the separate `.syn`) sort their records by the
case-folded byte key (lowercased bytes first, raw bytes as tiebreak) in
a stable sort that permutes the collected records; the non-merge `.idx`
is written in entry-arrival order instead (the glossary engine pre-sorts
the entry stream, `sortOnWrite = ALWAYS`). -/
theorem claim_C1_amended (indexList : List (Bytes × Bytes))
    (altIndexList : List (Bytes × Nat)) :
    (writeIdxFileRecords indexList).Pairwise (fun a b => sortKeyLe a b = true)
    ∧ (writeIdxFileRecords indexList).Perm indexList
    ∧ (writeSynFileRecords altIndexList).Pairwise
        (fun a b => sortKeyLe a b = true)
    ∧ (writeSynFileRecords altIndexList).Perm altIndexList := by
  refine ⟨?_, sortStable_perm _ _, ?_, sortStable_perm _ _⟩
  · exact @pairwise_sortStable _ sortKeyLe
      (fun x y z hxy hyz => sortKeyLe_trans hxy hyz)
      (fun x y => sortKeyLe_total x y) indexList
  · exact @pairwise_sortStable _ sortKeyLe
      (fun x y z hxy hyz => sortKeyLe_trans hxy hyz)
      (fun x y => sortKeyLe_total x y) altIndexList

/-- The sort key used in the `SqEntryList` demonstrations: a single
sqlite column whose value is the entry itself. -/
def sqDemoKey : List (String × String × (Nat → Nat)) :=
  [("word", "TEXT", fun e => e)]

/-- A store state after `setSortKey`, one `append` and `sort`. -/
def c4StateSorted : SqEntryList Nat Nat :=
  { rows := [([5], 5)], orderBy := .columnsAsc, sortedFlag := true,
    reverse := false, len := 1, sqliteSortKey := some sqDemoKey }

/-- A store state after `setSortKey` and one `append`, before `sort`. -/
def c4StateUnsorted : SqEntryList Nat Nat :=
  { rows := [([5], 5)], orderBy := .rowid, sortedFlag := false,
    reverse := false, len := 1, sqliteSortKey := some sqDemoKey }

/-- **C4, counterexample.**  The claim says the store raises a fatal
error on *each* of the four contract violations.  But `append` never
checks the sorted flag and `__iter__` never checks the phase: after
`setSortKey`, `append(5)`, `sort()`, a further `append(7)` succeeds
(no `AppendAfterSort`), and iterating the unsorted store yields the
rows in insertion order instead of raising `IterateBeforeSort`. -/
theorem claim_C4_counterexample :
    ∃ s1 s2 s3 s4 : SqEntryList Nat Nat,
      (SqEntryList.init Nat Nat).setSortKey sqDemoKey = .ok s1
      ∧ s1.append 5 = .ok s2
      ∧ s2.sort false = .ok s3
      ∧ s3.append 7 = .ok s4
      ∧ s2.iterEntries = [5] := by
  exact ⟨_, _, _, _, rfl, rfl, rfl, rfl, rfl⟩

/-- **C4, amended.**  Of the four errors named by the spec, the store
raises exactly two: a second `setSortKey` raises
(`SetSortKeyTwice`) and a second `sort` raises (`SortTwice`); `append`
after `sort` is accepted without any error, and iterating before `sort`
(key set or not) raises nothing and scans in insertion (`rowid`)
order. -/
theorem claim_C4_amended {α κ : Type} [LinearOrder κ] (s : SqEntryList α κ)
    (key : List (String × String × (α → κ))) (e : α) (reverse : Bool) :
    (s.sqliteSortKey.isSome = true →
      s.setSortKey key = .error "Called setSortKey twice")
    ∧ (s.sortedFlag = true →
      s.sort reverse = .error "can not sort more than once")
    ∧ (s.sqliteSortKey.isSome = true → ∃ s', s.append e = .ok s')
    ∧ (s.orderBy = .rowid → s.iterEntries = s.rows.map (fun r => r.2)) := by
  refine ⟨?_, ?_, ?_, ?_⟩
  · intro h
    simp [SqEntryList.setSortKey, h]
  · intro h
    simp [SqEntryList.sort, h]
  · intro h
    rcases Option.isSome_iff_exists.mp h with ⟨k, hk⟩
    exact ⟨{ s with
        rows := s.rows ++ [((k.map fun col => col.2.2 e), e)]
        len := s.len + 1 },
      by simp [SqEntryList.append, hk]⟩
  · intro h
    simp [SqEntryList.iterEntries, h, selectRows]

/-- **C4, witness** for the amended theorem, at the two concrete states
above. -/
theorem claim_C4_amended_witness :
    (c4StateSorted.setSortKey sqDemoKey = .error "Called setSortKey twice")
    ∧ (c4StateSorted.sort false = .error "can not sort more than once")
    ∧ (∃ s', c4StateSorted.append 7 = .ok s')
    ∧ (c4StateUnsorted.iterEntries = c4StateUnsorted.rows.map (fun r => r.2)) := by
  have h1 := claim_C4_amended c4StateSorted sqDemoKey 7 false
  have h2 := claim_C4_amended c4StateUnsorted sqDemoKey 7 false
  exact ⟨h1.1 rfl, h1.2.1 rfl, h1.2.2.1 rfl, h2.2.2.2 rfl⟩

/-- **C6, confirmed.**  Writing the single entry
`words = ["colour", "color"]` with `merge_syns` (compact layout)
produces exactly two `.idx` records — `color` first under the
case-folded order — both carrying the same
`(offset, length) = (0, len(defi))` block data; the `altIndexList`
stays empty, so no `.syn` file is written (`writeSynFile` returns
without writing for an empty list, and the merge path never calls it). -/
theorem claim_C6 :
    writeIdxFileRecords (writeCompactMergeSynsGo
        [WInput.entry [[99, 111, 108, 111, 117, 114],
          [99, 111, 108, 111, 114]] [100] "h"] 0).idxBlockList
      = [([99, 111, 108, 111, 114], uint32ToBytes 0 ++ uint32ToBytes 1),
          ([99, 111, 108, 111, 117, 114], uint32ToBytes 0 ++ uint32ToBytes 1)]
    ∧ (writeIdxFile (writeCompactMergeSynsGo
        [WInput.entry [[99, 111, 108, 111, 117, 114],
          [99, 111, 108, 111, 114]] [100] "h"] 0).idxBlockList).2 = 2
    ∧ (writeCompactMergeSynsGo
        [WInput.entry [[99, 111, 108, 111, 117, 114],
          [99, 111, 108, 111, 114]] [100] "h"] 0).altIndexList = []
    ∧ writeSynFile (writeCompactMergeSynsGo
        [WInput.entry [[99, 111, 108, 111, 117, 114],
          [99, 111, 108, 111, 114]] [100] "h"] 0).altIndexList = none := by
  refine ⟨by decide, rfl, rfl, rfl⟩

/-- **C10, confirmed.**  In both merge-syns writers the `wordcount`
passed to (and returned by) `writeIdxFile` is the total number of index
records — the sum over all non-data entries of the length of their word
list, i.e. `1 + number of aliases` each; the `altIndexList` stays empty
in these code paths, so `writeIfoFile` is called with `synWordCount = 0`
and never emits a `synwordcount` line. -/
theorem claim_C10 (inputs : List WInput)
    (bookname author email website date description : String)
    (idxSizeC idxSizeG : Nat) (vC vG : String) :
    (writeIdxFile (writeCompactMergeSynsGo inputs 0).idxBlockList).2
      = (inputs.map fun i => match i with
          | .data => 0
          | .entry words _ _ => words.length).sum
    ∧ (writeIdxFile (writeGeneralMergeSynsGo inputs 0).idxBlockList).2
      = (inputs.map fun i => match i with
          | .data => 0
          | .entry words _ _ => words.length).sum
    ∧ (writeCompactMergeSynsGo inputs 0).altIndexList = []
    ∧ (writeGeneralMergeSynsGo inputs 0).altIndexList = []
    ∧ ("synwordcount", vC) ∉ writeIfoFile bookname
        (writeIdxFile (writeCompactMergeSynsGo inputs 0).idxBlockList).2
        idxSizeC ((writeCompactMergeSynsGo inputs 0).altIndexList.length)
        "h" author email website date description
    ∧ ("synwordcount", vG) ∉ writeIfoFile bookname
        (writeIdxFile (writeGeneralMergeSynsGo inputs 0).idxBlockList).2
        idxSizeG ((writeGeneralMergeSynsGo inputs 0).altIndexList.length)
        "" author email website date description := by
  refine ⟨?_, ?_, writeCompactMergeSynsGo_alt inputs 0,
    writeGeneralMergeSynsGo_alt inputs 0, ?_, ?_⟩
  · rw [writeIdxFile_count, writeCompactMergeSynsGo_idx_length]
  · rw [writeIdxFile_count, writeGeneralMergeSynsGo_idx_length]
  · rw [writeCompactMergeSynsGo_alt inputs 0]
    simp only [List.length_nil]
    exact synwordcount_not_mem_writeIfoFile bookname _ idxSizeC "h" author
      email website date description vC
  · rw [writeGeneralMergeSynsGo_alt inputs 0]
    simp only [List.length_nil]
    exact synwordcount_not_mem_writeIfoFile bookname _ idxSizeG "" author
      email website date description vG

/-- Integer characterization of the auto-selection with the
empty-string option: the strict rational thresholds `> 0.97` and
`> 0.5` of `Writer.open` as exact conditions on the sample counts. -/
theorem autoSelect_empty_char (formats : List String) (h : formats ≠ []) :
    autoSelectSametypesequence (some "") formats
      = some (if 100 * (formats.take 100).count "m"
            > 97 * (formats.take 100).length then "m"
          else if 2 * (formats.take 100).count "h"
            > (formats.take 100).length then "h"
          else "") := by
  have hne : (formats.take 100).isEmpty = false := by
    cases formats with
    | nil => exact absurd rfl h
    | cons a t => simp [List.take]
  have hpos : 0 < ((formats.take 100).length : ℚ) := by
    have hnil : (formats.take 100) ≠ [] := by
      intro hc
      rw [hc] at hne
      simp [List.isEmpty] at hne
    have hl : 0 < (formats.take 100).length := List.length_pos.mpr hnil
    exact_mod_cast hl
  unfold autoSelectSametypesequence collectDefiFormat
  simp only [if_pos rfl, hne, Bool.false_eq_true, if_false]
  have hiff1 : (((formats.take 100).count "m" : ℚ)
        / ((formats.take 100).length : ℚ) > 97 / 100)
      ↔ 100 * (formats.take 100).count "m"
          > 97 * (formats.take 100).length := by
    rw [gt_iff_lt, div_lt_div_iff₀ (by norm_num) hpos]
    constructor
    · intro hlt
      exact_mod_cast (by linarith :
        ((97 : ℚ) * (formats.take 100).length
          < 100 * (formats.take 100).count "m"))
    · intro hlt
      have hq : ((97 : ℚ) * (formats.take 100).length
          < 100 * (formats.take 100).count "m") := by exact_mod_cast hlt
      linarith
  have hiff2 : (((formats.take 100).count "h" : ℚ)
        / ((formats.take 100).length : ℚ) > 1 / 2)
      ↔ 2 * (formats.take 100).count "h" > (formats.take 100).length := by
    rw [gt_iff_lt, div_lt_div_iff₀ (by norm_num) hpos]
    constructor
    · intro hlt
      exact_mod_cast (by linarith :
        (((formats.take 100).length : ℚ)
          < 2 * (formats.take 100).count "h"))
    · intro hlt
      have hq : (((formats.take 100).length : ℚ)
          < 2 * (formats.take 100).count "h") := by exact_mod_cast hlt
      linarith
  rw [if_congr hiff1 rfl (if_congr hiff2 rfl rfl)]
  simp only [if_true]
  split_ifs <;> rfl

set_option maxRecDepth 4000 in
/-- **C7, counterexample.**  The claim says `sametypesequence = "m"` is
selected when *at least* 97% of the sampled definition formats are
plaintext.  The code compares with a strict `stat["m"] > 0.97`: a
100-entry glossary with exactly 97 plaintext entries (97% exactly, so
the claim's threshold is met) is left with the empty value — the
general layout — instead of `"m"`. -/
theorem claim_C7_counterexample :
    autoSelectSametypesequence (some "")
        (List.replicate 97 "m" ++ List.replicate 3 "x") = some ""
    ∧ (((List.replicate 97 "m" ++ List.replicate 3 "x").count "m" : ℚ)
        = (97 / 100 : ℚ)
          * ((List.replicate 97 "m" ++ List.replicate 3 "x").length : ℚ)) := by
  have hlen : (List.replicate 97 "m"
      ++ (List.replicate 3 "x" : List String)).length = 100 := by decide
  have hcm : (List.replicate 97 "m"
      ++ (List.replicate 3 "x" : List String)).count "m" = 97 := by decide
  constructor
  · rw [autoSelect_empty_char _ (List.length_pos.mp (by decide))]
    decide
  · rw [hcm, hlen]
    norm_num

/-- **C7, amended.**  With the empty-string option, the writer samples
the first 100 entries' definition formats and selects `"m"` when
*strictly more* than 97% of them are plaintext, otherwise `"h"` when
strictly more than half are HTML, otherwise leaves the value empty
(general layout). -/
theorem claim_C7_amended (formats : List String) (h : formats ≠ []) :
    autoSelectSametypesequence (some "") formats
      = some (if 100 * (formats.take 100).count "m"
            > 97 * (formats.take 100).length then "m"
          else if 2 * (formats.take 100).count "h"
            > (formats.take 100).length then "h"
          else "") :=
  autoSelect_empty_char formats h

set_option maxRecDepth 4000 in
/-- **C7, witness**: 98 of 100 sampled formats are plaintext (strictly
above the 97% threshold), so `"m"` is selected. -/
theorem claim_C7_amended_witness :
    autoSelectSametypesequence (some "")
      (List.replicate 98 "m" ++ List.replicate 2 "x") = some "m" := by
  rw [claim_C7_amended _ (List.length_pos.mp (by decide))]
  decide

/-- `Except.ok x >>= f` reduces to `f x`. -/
theorem except_bind_ok {ε β γ : Type} (x : β) (f : β → Except ε γ) :
    ((Except.ok x : Except ε β) >>= f) = f x := rfl

/-- The rows inserted by a run of `append`s: one row per entry, in
insertion order, carrying the computed column values. -/
theorem foldlM_append_spec {α κ : Type} (entries : List α)
    (key : List (String × String × (α → κ))) (s : SqEntryList α κ)
    (hkey : s.sqliteSortKey = some key) :
    entries.foldlM SqEntryList.append s = .ok
      { s with
        rows := s.rows ++ entries.map (fun e => (sqKeyOf key e, e))
        len := s.len + entries.length } := by
  induction entries generalizing s with
  | nil =>
    show Except.ok s = _
    cases s
    simp
  | cons e rest ih =>
    rw [List.foldlM_cons]
    have happ : SqEntryList.append s e = .ok { s with
        rows := s.rows ++ [((key.map fun col => col.2.2 e), e)]
        len := s.len + 1 } := by
      simp [SqEntryList.append, hkey]
    rw [happ, except_bind_ok,
      ih { s with
        rows := s.rows ++ [((key.map fun col => col.2.2 e), e)]
        len := s.len + 1 } hkey]
    simp only [Except.ok.injEq, SqEntryList.mk.injEq, List.append_assoc,
      List.singleton_append, List.map_cons, sqKeyOf, List.length_cons,
      and_true, true_and]
    omega

/-- Sorting the rows of an entry table and projecting the entries back:
permutation, sortedness for any row comparator that is total,
transitive and tie-true on equal keys, and stability in the form that
filtering by any key value returns the insertion order. -/
theorem sortStable_rows_spec {α κ : Type} [DecidableEq κ]
    (keyOf : α → List κ) (le : (List κ × α) → (List κ × α) → Bool)
    (htrans : ∀ x y z, le x y = true → le y z = true → le x z = true)
    (htotal : ∀ x y, le x y = true ∨ le y x = true)
    (hrefl : ∀ x y : List κ × α, x.1 = y.1 → le x y = true)
    (entries : List α) :
    ((sortStable le (entries.map fun e => (keyOf e, e))).map
        (fun r => r.2)).Perm entries
    ∧ ((sortStable le (entries.map fun e => (keyOf e, e))).map
        (fun r => r.2)).Pairwise
        (fun a b => le (keyOf a, a) (keyOf b, b) = true)
    ∧ ∀ k : List κ,
        ((sortStable le (entries.map fun e => (keyOf e, e))).map
          (fun r => r.2)).filter (fun e => decide (keyOf e = k))
        = entries.filter (fun e => decide (keyOf e = k)) := by
  set rows := entries.map fun e => (keyOf e, e) with hrows
  have hmem : ∀ r ∈ rows, r = (keyOf r.2, r.2) := by
    intro r hr
    rw [hrows] at hr
    rcases List.mem_map.mp hr with ⟨e, _, rfl⟩
    rfl
  have hsortmem : ∀ r ∈ sortStable le rows, r = (keyOf r.2, r.2) := by
    intro r hr
    exact hmem r ((sortStable_perm le rows).mem_iff.mp hr)
  refine ⟨?_, ?_, ?_⟩
  · have hp := (sortStable_perm le rows).map (fun r : List κ × α => r.2)
    have hid : rows.map (fun r => r.2) = entries := by
      rw [hrows, List.map_map]
      exact List.map_id'' (fun x => rfl) entries
    rwa [hid] at hp
  · have hpw := @pairwise_sortStable _ le htrans htotal rows
    have hpw2 : (sortStable le rows).Pairwise
        (fun x y => le (keyOf x.2, x.2) (keyOf y.2, y.2) = true) := by
      refine hpw.imp_of_mem ?_
      intro a b ha hb hab
      rw [← hsortmem a ha, ← hsortmem b hb]
      exact hab
    exact List.pairwise_map.mpr hpw2
  · intro k
    rw [List.filter_map]
    have hq : (sortStable le rows).filter
          ((fun e => decide (keyOf e = k)) ∘ (fun r => r.2))
        = sortStable le (rows.filter
          ((fun e => decide (keyOf e = k)) ∘ (fun r => r.2))) :=
      sortStable_filter htrans htotal rows
    rw [hq]
    have hfr : rows.filter ((fun e => decide (keyOf e = k)) ∘ (fun r => r.2))
        = (entries.filter fun e => decide (keyOf e = k)).map
          fun e => (keyOf e, e) := by
      rw [hrows, List.filter_map]
      congr 1
    rw [hfr]
    have hties : sortStable le ((entries.filter
          fun e => decide (keyOf e = k)).map fun e => (keyOf e, e))
        = (entries.filter fun e => decide (keyOf e = k)).map
          fun e => (keyOf e, e) := by
      apply sortStable_eq_self_of_ties
      intro x hx y hy
      rcases List.mem_map.mp hx with ⟨ex, hex, rfl⟩
      rcases List.mem_map.mp hy with ⟨ey, hey, rfl⟩
      have hkx : keyOf ex = k := of_decide_eq_true (List.mem_filter.mp hex).2
      have hky : keyOf ey = k := of_decide_eq_true (List.mem_filter.mp hey).2
      exact hrefl _ _ (by simp [hkx, hky])
    rw [hties, List.map_map]
    exact List.map_id'' (fun x => rfl) _

/-- The whole lifecycle, evaluated: the store ends up scanning the
stable sort of the rows inserted in order. -/
theorem runStore_eq {α κ : Type} [LinearOrder κ]
    (key : List (String × String × (α → κ))) (entries : List α)
    (reverse : Bool) :
    runStore key entries reverse = .ok
      ((selectRows (entries.map fun e => (sqKeyOf key e, e))
        (if reverse then .columnsDesc else .columnsAsc)).map (fun r => r.2)) := by
  have h1 : (SqEntryList.init α κ).setSortKey key
      = Except.ok ⟨[], .rowid, false, false, 0, some key⟩ := rfl
  have h2 : List.foldlM SqEntryList.append
        (⟨[], .rowid, false, false, 0, some key⟩ : SqEntryList α κ) entries
      = Except.ok ⟨entries.map (fun e => (sqKeyOf key e, e)), .rowid, false,
          false, entries.length, some key⟩ := by
    rw [foldlM_append_spec entries key _ rfl]
    simp
  have h3 : SqEntryList.sort (⟨entries.map (fun e => (sqKeyOf key e, e)),
        .rowid, false, false, entries.length, some key⟩ : SqEntryList α κ)
        reverse
      = Except.ok ⟨entries.map (fun e => (sqKeyOf key e, e)),
          if reverse then .columnsDesc else .columnsAsc, true, reverse,
          entries.length, some key⟩ := rfl
  unfold runStore
  rw [h1, except_bind_ok, h2, except_bind_ok, h3, except_bind_ok]
  rfl

/-- **C3, confirmed** (the sqlite `ORDER BY` scan is modelled from the
spec, `selectRows`).  For any sort key and any sequence of appended
entries, the store's normal lifecycle succeeds and iterating after
`sort(reverse)` yields a permutation of the appended entries, ordered by
the key columns — ascending, or descending when `reverse` — and stable:
filtering the output by any key value gives exactly the insertion-order
subsequence with that key. -/
theorem claim_C3 {α κ : Type} [LinearOrder κ] [DecidableEq κ]
    (key : List (String × String × (α → κ))) (entries : List α)
    (reverse : Bool) :
    ∃ out, runStore key entries reverse = .ok out
      ∧ out.Perm entries
      ∧ out.Pairwise (fun a b =>
          (if reverse then lexLe (sqKeyOf key b) (sqKeyOf key a)
            else lexLe (sqKeyOf key a) (sqKeyOf key b)) = true)
      ∧ ∀ k : List κ, out.filter (fun e => decide (sqKeyOf key e = k))
          = entries.filter (fun e => decide (sqKeyOf key e = k)) := by
  cases reverse with
  | false =>
    have hspec := sortStable_rows_spec (sqKeyOf key)
      (fun a b => lexLe a.1 b.1)
      (fun x y z hxy hyz => lexLe_trans hxy hyz)
      (fun x y => lexLe_total x.1 y.1)
      (fun x y hxy => by
        show lexLe x.1 y.1 = true
        rw [hxy]
        exact lexLe_refl y.1)
      entries
    refine ⟨_, ?_, hspec.1, by simpa using hspec.2.1, hspec.2.2⟩
    rw [runStore_eq]
    rfl
  | true =>
    have hspec := sortStable_rows_spec (sqKeyOf key)
      (fun a b => lexLe b.1 a.1)
      (fun x y z hxy hyz => lexLe_trans hyz hxy)
      (fun x y => lexLe_total y.1 x.1)
      (fun x y hxy => by
        show lexLe y.1 x.1 = true
        rw [hxy]
        exact lexLe_refl y.1)
      entries
    refine ⟨_, ?_, hspec.1, by simpa using hspec.2.1, hspec.2.2⟩
    rw [runStore_eq]
    rfl

/-- **C8, code bug** (the spec itself flags this as the intended
behavior and the code as almost certainly buggy).  The claim says an
entry whose `mimetype` accessor fails is yielded as exactly one data
entry and iteration proceeds to the next entry, with the
mimetype-reading branches never evaluated.  The `except RuntimeError`
block lacks a `continue`: evaluated at the failing inputs, (1) when the
*first* entry has an unreadable MIME type, control falls through to
`mimetype.startswith(...)` with the local never assigned and iteration
dies with an `UnboundLocalError`; (2) when a previous entry set
`mimetype = "text/html"`, the invalid-MIME entry is yielded *twice* —
once as a data entry and then again as an HTML entry under the stale
MIME type. -/
theorem claim_C8_code_bug :
    zimIter 255 (fun _ => "") (fun s => s)
        [⟨"w", false, "", [1], none⟩] none
      = .error "UnboundLocalError: mimetype"
    ∧ zimIter 255 (fun _ => "") (fun s => s)
        [⟨"a", false, "", [1], some "text/html"⟩,
          ⟨"w", false, "", [2], none⟩] none
      = .ok [.entry "a" "" "h", .dataEntry "w" [2], .entry "w" "" "h"] := by
  constructor <;> rfl

/-- Soundness of the phase-1 map: a successful lookup comes from some
entry of the file with that code. -/
theorem termByCode_sound (entries : List GoldbookEntry) (c t : String)
    (h : termByCode entries c = some t) :
    ∃ B ∈ entries, B.code = some c ∧ B.term = some t := by
  induction entries with
  | nil => simp [termByCode] at h
  | cons e rest ih =>
    rw [termByCode] at h
    cases hrec : termByCode rest c with
    | some t' =>
      rw [hrec] at h
      cases h
      obtain ⟨B, hB, hBc, hBt⟩ := ih hrec
      exact ⟨B, List.mem_cons_of_mem e hB, hBc, hBt⟩
    | none =>
      rw [hrec] at h
      cases hterm : e.term with
      | none => rw [hterm] at h; cases h
      | some te =>
        cases hcode : e.code with
        | none => rw [hterm, hcode] at h; cases h
        | some ce =>
          rw [hterm, hcode] at h
          change (if ce = c then some te else none) = some t at h
          by_cases hce : ce = c
          · rw [if_pos hce] at h
            cases h
            exact ⟨e, List.mem_cons_self e rest, by rw [hcode, hce],
              hterm⟩
          · rw [if_neg hce] at h
            cases h

/-- Completeness of the phase-1 map: an entry with a code and a term is
found by lookup. -/
theorem termByCode_isSome (entries : List GoldbookEntry)
    (B : GoldbookEntry) (hB : B ∈ entries) (c tB : String)
    (hc : B.code = some c) (ht : B.term = some tB) :
    (termByCode entries c).isSome = true := by
  induction entries with
  | nil => simp at hB
  | cons e rest ih =>
    rw [termByCode]
    cases hrec : termByCode rest c with
    | some t' => rfl
    | none =>
      rcases List.mem_cons.mp hB with rfl | hB'
      · rw [ht, hc]
        change ((if c = c then some tB else none)).isSome = true
        rw [if_pos rfl]
        rfl
      · have hsome := ih hB'
        rw [hrec] at hsome
        cases hsome

/-- The phase-1 lookup under the uniqueness hypothesis of C9. -/
theorem termByCode_eq_of (entries : List GoldbookEntry) (c t : String)
    (hex : ∃ B ∈ entries, B.code = some c ∧ (B.term).isSome = true)
    (hall : ∀ B ∈ entries, B.code = some c → B.term = some t) :
    termByCode entries c = some t := by
  obtain ⟨B, hB, hBc, hBt⟩ := hex
  obtain ⟨tB, htB⟩ := Option.isSome_iff_exists.mp hBt
  have hs := termByCode_isSome entries B hB c tB hBc htB
  obtain ⟨t', ht'⟩ := Option.isSome_iff_exists.mp hs
  obtain ⟨B', hB', hB'c, hB't⟩ := termByCode_sound entries c t' ht'
  have hBt' : B'.term = some t := hall B' hB' hB'c
  rw [hB't] at hBt'
  cases hBt'
  exact ht'

/-- Entry A of the C9 scenario: `<replacedby>x.y.B</replacedby>` and a
`<related>` URL ending in `/B`. -/
def c9EntryA : GoldbookEntry :=
  { code := some "A", term := some "Alpha", replacedby := some "x.y.B"
    relatedList := ["x/y/B"] }

/-- Entry B of the C9 scenario: `<term>Beta</term><code>B</code>`. -/
def c9EntryB : GoldbookEntry :=
  { code := some "B", term := some "Beta" }

/-- An entry referring to code `B` through a `<related>` URL only. -/
def c9RelA : GoldbookEntry :=
  { code := some "A", term := some "Alpha", relatedList := ["x/y/B"] }

/-- An entry of the file whose `<term>` element is present but empty. -/
def c9EmptyB : GoldbookEntry :=
  { code := some "B", term := some "" }

/-- **C9, counterexample.**  The claim says no `<replacedby>` *or
`<related>`* reference falls back to the raw code when the target entry
exists in the file.  The related path tests `if not relatedTerm:`,
which fires not only on a missing code but also on an *empty* term:
with entry `B` present in the file (the phase-1 lookup succeeds, term
`""`), the `Related:` link emitted for a reference to `B` is the raw
code `B`, not the target's term. -/
theorem claim_C9_counterexample :
    termByCode [c9RelA, c9EmptyB] "B" = some ""
    ∧ lastSlashSegment "x/y/B" = "B"
    ∧ relatedPart (termByCode [c9RelA, c9EmptyB]) ["x/y/B"]
        = "Related: <a href=\"bword://B\">B</a>"
    ∧ ("Related: <a href=\"bword://B\">B</a>")
        ∈ entryDefiParts (termByCode [c9RelA, c9EmptyB]) c9RelA := by
  refine ⟨by decide, by decide, by decide, ?_⟩
  unfold entryDefiParts
  decide

/-- **C9, amended.**  The phase-1 `termByCode` map is fully built in
`Reader.open` before any phase-2 emission.  When the code `c` is
carried by an entry of the file with term `t`: every `<replacedby>`
reference whose last dot-segment is `c` links `t` — even an empty `t`,
since that path falls back only on a missing code (`is None`); every
`<related>` reference whose last slash-segment is `c` links `t` when
`t` is non-empty, but falls back to the raw code `c` when `t` is empty
(`if not relatedTerm`); and the `Replaced by:` part emitted for any
entry of the file carrying such a reference is the `t`-link, never the
raw code. -/
theorem claim_C9_amended (entries : List GoldbookEntry) (c t : String)
    (hex : ∃ B ∈ entries, B.code = some c ∧ (B.term).isSome = true)
    (hall : ∀ B ∈ entries, B.code = some c → B.term = some t) :
    termByCode entries c = some t
    ∧ (∀ r, lastDotSegment r = c →
      replacedbyPart (termByCode entries) r
        = "Replaced by: <a href=\"bword://" ++ t ++ "\">" ++ t ++ "</a>")
    ∧ (t ≠ "" → ∀ urls : List String, (∀ u ∈ urls, lastSlashSegment u = c) →
      relatedPart (termByCode entries) urls
        = "Related: " ++ String.intercalate ", " (urls.map fun u =>
            "<a href=\"bword://" ++ t ++ "\">" ++ t ++ "</a>"))
    ∧ (t = "" → ∀ urls : List String, (∀ u ∈ urls, lastSlashSegment u = c) →
      relatedPart (termByCode entries) urls
        = "Related: " ++ String.intercalate ", " (urls.map fun u =>
            "<a href=\"bword://" ++ c ++ "\">" ++ c ++ "</a>"))
    ∧ (∀ A ∈ entries, ∀ r, A.replacedby = some r → lastDotSegment r = c →
      ("Replaced by: <a href=\"bword://" ++ t ++ "\">" ++ t ++ "</a>")
        ∈ entryDefiParts (termByCode entries) A) := by
  have hmap := termByCode_eq_of entries c t hex hall
  have hrep : ∀ r, lastDotSegment r = c →
      replacedbyPart (termByCode entries) r
        = "Replaced by: <a href=\"bword://" ++ t ++ "\">" ++ t ++ "</a>" := by
    intro r hrc
    simp only [replacedbyPart]
    rw [hrc, hmap]
    rfl
  refine ⟨hmap, hrep, ?_, ?_, ?_⟩
  · intro ht urls hurl
    unfold relatedPart
    congr 2
    refine List.map_congr_left ?_
    intro u hu
    simp only [hurl u hu, hmap, if_neg ht]
  · intro ht urls hurl
    subst ht
    unfold relatedPart
    congr 2
    refine List.map_congr_left ?_
    intro u hu
    simp only [hurl u hu, hmap, if_pos rfl, if_true]
  · intro A hA r hr hrc
    unfold entryDefiParts
    rw [hr, ← hrep r hrc]
    simp [List.mem_append]

/-- **C9 amended, witness**: the claim's own two-entry scenario — `A`
with `<replacedby>x.y.B</replacedby>` and a `<related>` URL ending in
`/B`, `B` with term `Beta` and code `B` — through the amended theorem:
both links are `bword://Beta`, and the full phase-2 output of the file
computes to exactly those definitions. -/
theorem claim_C9_amended_witness :
    (∃ B ∈ [c9EntryA, c9EntryB], B.code = some "B"
        ∧ (B.term).isSome = true)
    ∧ termByCode [c9EntryA, c9EntryB] "B" = some "Beta"
    ∧ replacedbyPart (termByCode [c9EntryA, c9EntryB]) "x.y.B"
        = "Replaced by: <a href=\"bword://" ++ "Beta" ++ "\">" ++ "Beta"
          ++ "</a>"
    ∧ relatedPart (termByCode [c9EntryA, c9EntryB]) ["x/y/B"]
        = "Related: " ++ String.intercalate ", " (["x/y/B"].map fun u =>
            "<a href=\"bword://" ++ "Beta" ++ "\">" ++ "Beta" ++ "</a>")
    ∧ ("Replaced by: <a href=\"bword://" ++ "Beta" ++ "\">" ++ "Beta"
          ++ "</a>")
        ∈ entryDefiParts (termByCode [c9EntryA, c9EntryB]) c9EntryA
    ∧ goldbookIter [c9EntryA, c9EntryB]
      = [(["Alpha", "A"],
          "Replaced by: <a href=\"bword://Beta\">Beta</a><br/><br/>"
            ++ "Related: <a href=\"bword://Beta\">Beta</a>"),
          (["Beta", "B"], "")] := by
  have h := claim_C9_amended [c9EntryA, c9EntryB] "B" "Beta"
    ⟨c9EntryB, List.mem_cons_of_mem _ (List.mem_cons_self _ _), rfl, rfl⟩
    (by decide)
  exact ⟨⟨c9EntryB, List.mem_cons_of_mem _ (List.mem_cons_self _ _),
      rfl, rfl⟩,
    h.1,
    h.2.1 "x.y.B" (by decide),
    h.2.2.1 (by decide) ["x/y/B"] (by decide),
    h.2.2.2.2 c9EntryA (List.mem_cons_self _ _) "x.y.B" rfl (by decide),
    by decide⟩

/-! ### C5: the compact-block parse, stated from the claim's words

The claim describes the parse structurally, over the remaining bytes of
the block; `parseDefiBlockCompact` above is the source's index-based
cursor loop.  The two are proved equal. -/

/-- The claim's rule for one letter of `S` before the last, on the
remaining block: lowercase takes the NUL-terminated slice, uppercase a
4-byte big-endian length-prefixed slice; a failed bound check corrupts
the block. -/
def specTakePart (t : Nat) (rest : Bytes) : Option (Bytes × Bytes) :=
  if isLowerByte t then
    splitNul rest
  else
    if 4 ≤ rest.length then
      if 4 + uint32FromBytes (rest.take 4) ≤ rest.length then
        some ((rest.drop 4).take (uint32FromBytes (rest.take 4)),
          rest.drop (4 + uint32FromBytes (rest.take 4)))
      else none
    else none

/-- The claim's parse of the letters before the last, threading the
remaining block through. -/
def specInitParse : List Nat → Bytes → Option (List (Bytes × Nat) × Bytes)
  | [], rest => some ([], rest)
  | t :: ts, rest =>
    match specTakePart t rest with
    | none => none
    | some (part, rest') =>
      (specInitParse ts rest').map fun r => ((part, t) :: r.1, r.2)

/-- The claim's compact parse: each letter of `S` but the last takes its
part, then the last letter takes the whole remaining block, which must
be non-empty and, for a lowercase letter, free of NUL bytes; any failed
check corrupts the whole block. -/
def specCompactParse (seq : Bytes) (block : Bytes) :
    Option (List (Bytes × Nat)) :=
  match seq with
  | [] => none
  | _ :: _ =>
    match specInitParse seq.dropLast block with
    | none => none
    | some (ps, rest) =>
      if rest.isEmpty then none
      else
        if isLowerByte (seq.getLastD 0) then
          if 0 ∈ rest then none
          else some (ps ++ [(rest, seq.getLastD 0)])
        else some (ps ++ [(rest, seq.getLastD 0)])

theorem findIdx_zero_eq_splitNul (bs : Bytes) :
    bs.findIdx? (fun b => decide (b = 0))
      = (splitNul bs).map (fun r => r.1.length) := by
  induction bs with
  | nil => rfl
  | cons b t ih =>
    by_cases hb : b = 0
    · subst hb
      rw [List.findIdx?_cons]
      simp [splitNul]
    · rw [List.findIdx?_cons]
      simp only [hb, decide_eq_true_eq, if_neg hb, List.findIdx?_succ]
      rw [ih]
      simp only [splitNul, hb, if_false]
      cases hsp : splitNul t with
      | none => rfl
      | some r => rfl

theorem findNul_eq (block : Bytes) (i : Nat) :
    findNul block i
      = (splitNul (block.drop i)).map (fun r => r.1.length + i) := by
  unfold findNul
  rw [findIdx_zero_eq_splitNul]
  cases splitNul (block.drop i) with
  | none => rfl
  | some r => rfl

theorem splitNul_eq_none_iff (bs : Bytes) : splitNul bs = none ↔ 0 ∉ bs := by
  induction bs with
  | nil => simp [splitNul]
  | cons b t ih =>
    by_cases hb : b = 0
    · subst hb
      simp [splitNul]
    · simp only [splitNul, hb, if_false, List.mem_cons]
      cases hsp : splitNul t with
      | none =>
        simp only [Option.map_none', true_iff]
        intro hc
        rcases hc with hc | hc
        · exact hb hc.symm
        · exact (ih.mp hsp) hc
      | some r =>
        simp only [Option.map_some']
        constructor
        · intro hc
          cases hc
        · intro hc
          exfalso
          have h0 : 0 ∈ t := by
            rcases r with ⟨w, rest⟩
            have := splitNul_spec hsp
            rw [this.1]
            simp
          exact hc (Or.inr h0)

theorem parseCompactInit_cons (block : Bytes) (i t : Nat) (ts : List Nat) :
    parseCompactInit block i (t :: ts)
      = (if block.length ≤ i then none
        else if isLowerByte t then
          match findNul block i with
          | none => none
          | some j =>
            (parseCompactInit block (j + 1) ts).map fun r =>
              (((block.drop i).take (j - i), t) :: r.1, r.2)
        else
          if block.length < i + 4 then none
          else
            if block.length < i + 4
                + uint32FromBytes ((block.drop i).take 4) then none
            else
              (parseCompactInit block
                (i + 4 + uint32FromBytes ((block.drop i).take 4))
                ts).map fun r =>
                (((block.drop (i + 4)).take
                  (uint32FromBytes ((block.drop i).take 4)), t)
                  :: r.1, r.2)) := rfl

theorem specInitParse_cons (t : Nat) (ts : List Nat) (rest : Bytes) :
    specInitParse (t :: ts) rest
      = (match specTakePart t rest with
        | none => none
        | some (part, rest') =>
          (specInitParse ts rest').map fun r => ((part, t) :: r.1, r.2)) := rfl

theorem specInitParse_cons_none {t : Nat} {ts : List Nat} {rest : Bytes}
    (h : specTakePart t rest = none) : specInitParse (t :: ts) rest = none := by
  rw [specInitParse_cons, h]

theorem specInitParse_cons_some {t : Nat} {ts : List Nat}
    {rest part rest' : Bytes} (h : specTakePart t rest = some (part, rest')) :
    specInitParse (t :: ts) rest
      = (specInitParse ts rest').map fun r => ((part, t) :: r.1, r.2) := by
  rw [specInitParse_cons, h]

theorem parseCompactInit_lower_none {block : Bytes} {i t : Nat}
    {ts : List Nat} (hend : ¬ block.length ≤ i)
    (hlow : isLowerByte t = true) (hFN : findNul block i = none) :
    parseCompactInit block i (t :: ts) = none := by
  rw [parseCompactInit_cons, if_neg hend, if_pos hlow, hFN]

theorem parseCompactInit_lower_some {block : Bytes} {i t : Nat}
    {ts : List Nat} {j : Nat} (hend : ¬ block.length ≤ i)
    (hlow : isLowerByte t = true) (hFN : findNul block i = some j) :
    parseCompactInit block i (t :: ts)
      = (parseCompactInit block (j + 1) ts).map fun r =>
          (((block.drop i).take (j - i), t) :: r.1, r.2) := by
  rw [parseCompactInit_cons, if_neg hend, if_pos hlow, hFN]

/-- The cursor loop of `parseCompactInit` is the claim's structural
parse: run from cursor `i`, it parses exactly what `specInitParse`
parses on `block.drop i`, and its final cursor points at the claim's
remaining block. -/
theorem parseCompactInit_eq_spec (ts : List Nat) (block : Bytes) (i : Nat)
    (hi : i ≤ block.length) :
    (parseCompactInit block i ts = none
      ∧ specInitParse ts (block.drop i) = none)
    ∨ (∃ ps i', parseCompactInit block i ts = some (ps, i')
        ∧ i ≤ i' ∧ i' ≤ block.length
        ∧ specInitParse ts (block.drop i) = some (ps, block.drop i')) := by
  induction ts generalizing i with
  | nil =>
    right
    exact ⟨[], i, rfl, le_refl i, hi, rfl⟩
  | cons t ts ih =>
    by_cases hlow : isLowerByte t = true
    · -- lowercase: NUL-terminated slice
      have hTP : specTakePart t (block.drop i) = splitNul (block.drop i) := by
        unfold specTakePart
        rw [if_pos hlow]
      by_cases hend : block.length ≤ i
      · left
        have hdrop : block.drop i = [] := List.drop_eq_nil_of_le hend
        have hc : parseCompactInit block i (t :: ts) = none := by
          rw [parseCompactInit_cons, if_pos hend]
        have hFNnone : specTakePart t (block.drop i) = none := by
          rw [hTP, hdrop]
          rfl
        exact ⟨hc, specInitParse_cons_none hFNnone⟩
      · cases hsp : splitNul (block.drop i) with
        | none =>
          left
          have hFN : findNul block i = none := by
            rw [findNul_eq, hsp]
            rfl
          refine ⟨parseCompactInit_lower_none hend hlow hFN, ?_⟩
          exact specInitParse_cons_none (by rw [hTP, hsp])
        | some wr =>
          rcases wr with ⟨w, r⟩
          obtain ⟨hblk, hw0⟩ := splitNul_spec hsp
          have hlen : block.length - i = w.length + 1 + r.length := by
            have hlen0 := congrArg List.length hblk
            simp only [List.length_drop, List.length_append,
              List.length_cons] at hlen0
            omega
          have hj1 : w.length + i + 1 ≤ block.length := by omega
          have hFN : findNul block i = some (w.length + i) := by
            rw [findNul_eq, hsp]
            rfl
          have hslice : (block.drop i).take (w.length + i - i) = w := by
            rw [Nat.add_sub_cancel, hblk]
            exact List.take_left w (0 :: r)
          have hdropj : block.drop (w.length + i + 1) = r := by
            have h1 : block.drop (w.length + i + 1)
                = (block.drop i).drop (w.length + 1) := by
              rw [List.drop_drop]
              congr 1
              omega
            rw [h1, hblk]
            have h2 : w ++ 0 :: r = (w ++ [0]) ++ r := by simp
            have h3 : (w ++ [0]).length = w.length + 1 := by simp
            rw [h2, ← h3]
            exact List.drop_left (w ++ [0]) r
          have hcons := @parseCompactInit_lower_some _ _ _ ts _ hend hlow hFN
          have hspcons := @specInitParse_cons_some _ ts _ _ _
            (show specTakePart t (block.drop i) = some (w, r) by
              rw [hTP, hsp])
          rcases ih (w.length + i + 1) hj1 with ⟨hcode, hspec⟩ | hsome
          · left
            rw [hdropj] at hspec
            constructor
            · rw [hcons, hcode]
              rfl
            · rw [hspcons, hspec]
              rfl
          · obtain ⟨ps, i', hcode, hii', hi'len, hspec⟩ := hsome
            right
            rw [hdropj] at hspec
            refine ⟨(w, t) :: ps, i', ?_, by omega, hi'len, ?_⟩
            · rw [hcons, hcode, Option.map_some']
              rw [hslice]
            · rw [hspcons, hspec, Option.map_some']
    · -- uppercase: 4-byte big-endian length prefix
      have hrlen : (block.drop i).length = block.length - i :=
        List.length_drop i block
      by_cases hend : block.length ≤ i
      · left
        have hno4 : ¬ 4 ≤ (block.drop i).length := by omega
        have hc : parseCompactInit block i (t :: ts) = none := by
          rw [parseCompactInit_cons, if_pos hend]
        refine ⟨hc, specInitParse_cons_none ?_⟩
        unfold specTakePart
        rw [if_neg hlow, if_neg hno4]
      · by_cases h4 : block.length < i + 4
        · left
          have hno4 : ¬ 4 ≤ (block.drop i).length := by omega
          have hc : parseCompactInit block i (t :: ts) = none := by
            rw [parseCompactInit_cons, if_neg hend, if_neg hlow, if_pos h4]
          refine ⟨hc, specInitParse_cons_none ?_⟩
          unfold specTakePart
          rw [if_neg hlow, if_neg hno4]
        · have hyes4 : 4 ≤ (block.drop i).length := by omega
          by_cases hsz : block.length < i + 4
              + uint32FromBytes ((block.drop i).take 4)
          · left
            have hnosz : ¬ 4 + uint32FromBytes ((block.drop i).take 4)
                ≤ (block.drop i).length := by omega
            have hc : parseCompactInit block i (t :: ts) = none := by
              rw [parseCompactInit_cons, if_neg hend, if_neg hlow,
                if_neg h4, if_pos hsz]
            refine ⟨hc, specInitParse_cons_none ?_⟩
            unfold specTakePart
            rw [if_neg hlow, if_pos hyes4, if_neg hnosz]
          · have hyessz : 4 + uint32FromBytes ((block.drop i).take 4)
                ≤ (block.drop i).length := by omega
            have hsliceq : ((block.drop i).drop 4).take
                  (uint32FromBytes ((block.drop i).take 4))
                = (block.drop (i + 4)).take
                  (uint32FromBytes ((block.drop i).take 4)) := by
              rw [List.drop_drop]
            have hdropq : (block.drop i).drop
                  (4 + uint32FromBytes ((block.drop i).take 4))
                = block.drop
                  (i + 4 + uint32FromBytes ((block.drop i).take 4)) := by
              rw [List.drop_drop]
              congr 1
              omega
            have hTP : specTakePart t (block.drop i)
                = some ((block.drop (i + 4)).take
                    (uint32FromBytes ((block.drop i).take 4)),
                  block.drop
                    (i + 4 + uint32FromBytes ((block.drop i).take 4))) := by
              unfold specTakePart
              rw [if_neg hlow, if_pos hyes4, if_pos hyessz, hsliceq, hdropq]
            have hnext : i + 4 + uint32FromBytes ((block.drop i).take 4)
                ≤ block.length := by omega
            have hcons : parseCompactInit block i (t :: ts)
                = (parseCompactInit block
                    (i + 4 + uint32FromBytes ((block.drop i).take 4))
                    ts).map fun r =>
                    (((block.drop (i + 4)).take
                      (uint32FromBytes ((block.drop i).take 4)), t)
                      :: r.1, r.2) := by
              rw [parseCompactInit_cons, if_neg hend, if_neg hlow,
                if_neg h4, if_neg hsz]
            have hspcons := @specInitParse_cons_some _ ts _ _ _ hTP
            rcases ih (i + 4 + uint32FromBytes ((block.drop i).take 4))
                hnext with ⟨hcode, hspec⟩ | hsome
            · left
              constructor
              · rw [hcons, hcode]
                rfl
              · rw [hspcons, hspec]
                rfl
            · obtain ⟨ps, i', hcode, hii', hi'len, hspec⟩ := hsome
              right
              refine ⟨((block.drop (i + 4)).take
                  (uint32FromBytes ((block.drop i).take 4)), t) :: ps, i',
                ?_, by omega, hi'len, ?_⟩
              · rw [hcons, hcode, Option.map_some']
              · rw [hspcons, hspec, Option.map_some']

/-- **C5, confirmed.**  (1) `Reader.parseDefiBlockCompact` computes
exactly the parse the claim describes (`specCompactParse`): for every
letter of `S` but the last, lowercase takes the NUL-terminated slice and
uppercase a 4-byte big-endian length-prefixed slice; the last letter
takes the whole remaining block — necessarily non-empty, and NUL-free
when lowercase — and any failed bound check corrupts the block.
(2) In `Reader.__iter__`, a record whose block is corrupted is skipped
(after a log) and iteration continues with the next index record. -/
theorem claim_C5 (block seq : Bytes) :
    parseDefiBlockCompact block seq = specCompactParse seq block
    ∧ (∀ (xf : Bytes → Bytes) (fl : Bool) (dict : Bytes)
        (syn : List (Bytes × Nat)) (w : Bytes) (off sz : Nat)
        (rest : List (Bytes × Nat × Nat)) (i : Nat),
        seq ≠ [] →
        parseDefiBlockCompact ((dict.drop off).take sz) seq = none →
        readerIterGo xf fl dict syn seq ((w, off, sz) :: rest) i
          = readerIterGo xf fl dict syn seq rest (i + 1)) := by
  constructor
  · cases hs : seq with
    | nil => rfl
    | cons s0 srest =>
      show (match parseCompactInit block 0 (s0 :: srest).dropLast with
        | none => none
        | some (res, i) =>
          if block.length ≤ i then none
          else
            if isLowerByte ((s0 :: srest).getLastD 0) then
              if 0 ∈ block.drop i then none
              else some (res ++ [(block.drop i, (s0 :: srest).getLastD 0)])
            else some (res ++ [(block.drop i, (s0 :: srest).getLastD 0)]))
        = specCompactParse (s0 :: srest) block
      rcases parseCompactInit_eq_spec ((s0 :: srest).dropLast) block 0
          (Nat.zero_le _) with ⟨hcode, hspec⟩ | hsome
      · rw [hcode]
        rw [List.drop_zero] at hspec
        simp [specCompactParse, hspec]
      · obtain ⟨ps, i', hcode, _, hi'len, hspec⟩ := hsome
        rw [hcode]
        rw [List.drop_zero] at hspec
        simp only [specCompactParse, hspec]
        have hempty : (block.drop i').isEmpty = true ↔ block.length ≤ i' := by
          rw [List.isEmpty_iff, List.drop_eq_nil_iff_le]
        by_cases hend : block.length ≤ i'
        · rw [if_pos hend, if_pos (hempty.mpr hend)]
        · rw [if_neg hend, if_neg (fun hc => hend (hempty.mp hc))]
  · intro xf fl dict syn w off sz rest i hne hnone
    show (let tail := readerIterGo xf fl dict syn seq rest (i + 1)
      if w = [] then tail
      else
        if ((dict.drop off).take sz).length ≠ sz then tail
        else
          match (if seq.isEmpty
              then parseDefiBlockGeneral ((dict.drop off).take sz)
              else parseDefiBlockCompact ((dict.drop off).take sz) seq) with
          | none => tail
          | some rawDefiList =>
            ((w :: synDictLookup syn i),
              (renderRawDefiList xf fl rawDefiList).1,
              (renderRawDefiList xf fl rawDefiList).2) :: tail)
      = readerIterGo xf fl dict syn seq rest (i + 1)
    have hemp : seq.isEmpty = false := by
      cases seq with
      | nil => exact absurd rfl hne
      | cons a b => rfl
    rw [hemp]
    by_cases hw : w = []
    · simp [hw]
    · simp only [hw, if_false, Bool.false_eq_true, hnone]
      split <;> simp_all

/-- **C5, witness**: the equivalence evaluated on `S = "tM"` with the
block `b"a\x00\x05\x06"`, and the skip behavior on an index whose first
record points at a corrupt one-byte block (no NUL for the lowercase
letter) while the second record is still processed. -/
theorem claim_C5_witness :
    parseDefiBlockCompact [97, 0, 5, 6] [116, 77]
        = specCompactParse [116, 77] [97, 0, 5, 6]
    ∧ readerIterGo (fun b => b) true [97, 0, 5] [] [116, 77]
        [([120], 2, 1), ([121], 0, 3)] 0
      = readerIterGo (fun b => b) true [97, 0, 5] [] [116, 77]
        [([121], 0, 3)] 1 := by
  have h := claim_C5 [97, 0, 5, 6] [116, 77]
  exact ⟨h.1, h.2 (fun b => b) true [97, 0, 5] [] [120] 2 1
    [([121], 0, 3)] 0 (by decide) (by decide)⟩

/-! ### C2: byte-level round trip, compact layout with a separate `.syn` -/

theorem readIdxFile_none {bs : Bytes} (h : splitNul bs = none) :
    readIdxFile bs = [] := by
  unfold readIdxFile
  split
  · rfl
  · rename_i w rest hsome
    rw [h] at hsome
    cases hsome

theorem readIdxFile_some {bs w rest : Bytes}
    (h : splitNul bs = some (w, rest)) :
    readIdxFile bs
      = (if 8 ≤ rest.length then
          (w, uint32FromBytes (rest.take 4),
            uint32FromBytes ((rest.drop 4).take 4))
            :: readIdxFile (rest.drop 8)
        else []) := by
  conv_lhs => rw [readIdxFile.eq_def]
  split
  · rename_i hnone
    rw [h] at hnone
    cases hnone
  · rename_i w' rest' hsome
    rw [h] at hsome
    injection hsome with hp
    cases hp
    rfl

theorem readSynFileRecords_none {bs : Bytes} (h : splitNul bs = none) :
    readSynFileRecords bs = [] := by
  unfold readSynFileRecords
  split
  · rfl
  · rename_i w rest hsome
    rw [h] at hsome
    cases hsome

theorem readSynFileRecords_some {bs w rest : Bytes}
    (h : splitNul bs = some (w, rest)) :
    readSynFileRecords bs
      = (if 4 ≤ rest.length then
          (w, uint32FromBytes (rest.take 4))
            :: readSynFileRecords (rest.drop 4)
        else []) := by
  conv_lhs => rw [readSynFileRecords.eq_def]
  split
  · rename_i hnone
    rw [h] at hnone
    cases hnone
  · rename_i w' rest' hsome
    rw [h] at hsome
    injection hsome with hp
    cases hp
    rfl

/-- Parsing the serialized `.idx` records recovers them exactly, for
NUL-free words and in-range offsets and lengths. -/
theorem readIdxFile_roundtrip (rs : List (Bytes × Nat × Nat))
    (h : ∀ r ∈ rs, 0 ∉ r.1 ∧ r.2.1 < 2 ^ 32 ∧ r.2.2 < 2 ^ 32) :
    readIdxFile (idxFileBytes rs) = rs := by
  induction rs with
  | nil => exact readIdxFile_none rfl
  | cons r rest ih =>
    rcases r with ⟨w, off, len⟩
    obtain ⟨hw, hoff, hlen⟩ := h _ (List.mem_cons_self _ _)
    have hrest := fun r hr => h r (List.mem_cons_of_mem _ hr)
    have hbytes : idxFileBytes ((w, off, len) :: rest)
        = w ++ 0 :: (uint32ToBytes off
            ++ (uint32ToBytes len ++ idxFileBytes rest)) := by
      simp [idxFileBytes, idxRecordBytes, List.append_assoc]
    have hlen8 : 8 ≤ (uint32ToBytes off
        ++ (uint32ToBytes len ++ idxFileBytes rest)).length := by
      simp only [List.length_append, uint32ToBytes, List.length_cons,
        List.length_nil]
      omega
    rw [hbytes, readIdxFile_some (splitNul_append _ hw), if_pos hlen8]
    have e1 : (uint32ToBytes off
        ++ (uint32ToBytes len ++ idxFileBytes rest)).take 4
        = uint32ToBytes off := rfl
    have e2 : ((uint32ToBytes off
        ++ (uint32ToBytes len ++ idxFileBytes rest)).drop 4).take 4
        = uint32ToBytes len := rfl
    have e3 : (uint32ToBytes off
        ++ (uint32ToBytes len ++ idxFileBytes rest)).drop 8
        = idxFileBytes rest := rfl
    rw [e1, e2, e3, uint32FromBytes_uint32ToBytes,
      uint32FromBytes_uint32ToBytes, Nat.mod_eq_of_lt hoff,
      Nat.mod_eq_of_lt hlen, ih hrest]

/-- Parsing the serialized `.syn` records recovers them exactly, for
NUL-free alternates and in-range entry indices. -/
theorem readSynFileRecords_roundtrip (rs : List (Bytes × Nat))
    (h : ∀ r ∈ rs, 0 ∉ r.1 ∧ r.2 < 2 ^ 32) :
    readSynFileRecords ((rs.map synRecordBytes).flatten) = rs := by
  induction rs with
  | nil => exact readSynFileRecords_none rfl
  | cons r rest ih =>
    rcases r with ⟨a, k⟩
    obtain ⟨ha, hk⟩ := h _ (List.mem_cons_self _ _)
    have hrest := fun r hr => h r (List.mem_cons_of_mem _ hr)
    have hbytes : (((a, k) :: rest).map synRecordBytes).flatten
        = a ++ 0 :: (uint32ToBytes k
            ++ ((rest.map synRecordBytes)).flatten) := by
      simp [synRecordBytes, List.append_assoc]
    have hlen4 : 4 ≤ (uint32ToBytes k
        ++ (rest.map synRecordBytes).flatten).length := by
      simp only [List.length_append, uint32ToBytes, List.length_cons,
        List.length_nil]
      omega
    rw [hbytes, readSynFileRecords_some (splitNul_append _ ha), if_pos hlen4]
    have e1 : (uint32ToBytes k
        ++ (rest.map synRecordBytes).flatten).take 4 = uint32ToBytes k := rfl
    have e2 : (uint32ToBytes k
        ++ (rest.map synRecordBytes).flatten).drop 4
        = (rest.map synRecordBytes).flatten := rfl
    rw [e1, e2, uint32FromBytes_uint32ToBytes, Nat.mod_eq_of_lt hk, ih hrest]

/-- The `.dict` stream a compact write produces: the concatenated
definitions, in entry order. -/
theorem writeCompactGo_dict (glos : List (List Bytes × Bytes)) (d0 i0 : Nat) :
    (writeCompactGo (glos.map fun g => WInput.entry g.1 g.2 "h") d0 i0).dict
      = (glos.map fun g => g.2).flatten := by
  induction glos generalizing d0 i0 with
  | nil => rfl
  | cons g rest ih => simp [writeCompactGo, fixDefi, ih]

theorem writeCompactGo_idx_length (glos : List (List Bytes × Bytes))
    (d0 i0 : Nat) :
    (writeCompactGo (glos.map fun g => WInput.entry g.1 g.2 "h") d0 i0).idx.length
      = glos.length := by
  induction glos generalizing d0 i0 with
  | nil => rfl
  | cons g rest ih => simp [writeCompactGo, ih]

/-- The queued `(b_alternate, entryIndex)` pairs of a compact write:
each entry's aliases tagged with its index, in order. -/
def globalAlts : List (List Bytes × Bytes) → Nat → List (Bytes × Nat)
  | [], _ => []
  | g :: rest, i => (g.1.tail.map fun a => (a, i)) ++ globalAlts rest (i + 1)

theorem writeCompactGo_alt (glos : List (List Bytes × Bytes)) (d0 i0 : Nat) :
    (writeCompactGo (glos.map fun g => WInput.entry g.1 g.2 "h") d0 i0).altIndexList
      = globalAlts glos i0 := by
  induction glos generalizing d0 i0 with
  | nil => rfl
  | cons g rest ih => simp [writeCompactGo, globalAlts, ih]

theorem headD_mem {l : List Bytes} (h : l ≠ []) : l.headD [] ∈ l := by
  cases l with
  | nil => exact absurd rfl h
  | cons a t => exact List.mem_cons_self a t

/-- Every `.idx` record of a compact write has a NUL-free word and an
offset and length below the dict-file bound. -/
theorem writeCompactGo_idx_valid (glos : List (List Bytes × Bytes))
    (d0 i0 : Nat)
    (hw : ∀ g ∈ glos, ∀ w ∈ g.1, (0 : Nat) ∉ w)
    (hne : ∀ g ∈ glos, g.1 ≠ [])
    (hbound : d0 + (glos.map fun g => g.2.length).sum < 2 ^ 32) :
    ∀ r ∈ (writeCompactGo (glos.map fun g => WInput.entry g.1 g.2 "h")
        d0 i0).idx,
      0 ∉ r.1 ∧ r.2.1 < 2 ^ 32 ∧ r.2.2 < 2 ^ 32 := by
  induction glos generalizing d0 i0 with
  | nil =>
    intro r hr
    cases hr
  | cons g rest ih =>
    intro r hr
    have hsum : (((g :: rest).map fun g => g.2.length).sum)
        = g.2.length + ((rest.map fun g => g.2.length).sum) := by simp
    rcases List.mem_cons.mp hr with rfl | hr'
    · refine ⟨?_, ?_, ?_⟩
      · exact hw g (List.mem_cons_self _ _) _
          (headD_mem (hne g (List.mem_cons_self _ _)))
      · show d0 < 2 ^ 32
        omega
      · show g.2.length < 2 ^ 32
        omega
    · exact ih (d0 + g.2.length) (i0 + 1)
        (fun g hg => hw g (List.mem_cons_of_mem _ hg))
        (fun g hg => hne g (List.mem_cons_of_mem _ hg))
        (by omega) r hr'

theorem globalAlts_tags (glos : List (List Bytes × Bytes)) (i0 : Nat) :
    ∀ r ∈ globalAlts glos i0, i0 ≤ r.2 ∧ r.2 < i0 + glos.length := by
  induction glos generalizing i0 with
  | nil =>
    intro r hr
    cases hr
  | cons g rest ih =>
    intro r hr
    rcases List.mem_append.mp hr with hr' | hr'
    · rcases List.mem_map.mp hr' with ⟨a, _, rfl⟩
      simp only [List.length_cons]
      omega
    · have := ih (i0 + 1) r hr'
      simp only [List.length_cons]
      omega

theorem globalAlts_mem (glos : List (List Bytes × Bytes)) (i0 : Nat)
    (hw : ∀ g ∈ glos, ∀ w ∈ g.1, (0 : Nat) ∉ w) :
    ∀ r ∈ globalAlts glos i0, 0 ∉ r.1 := by
  induction glos generalizing i0 with
  | nil =>
    intro r hr
    cases hr
  | cons g rest ih =>
    intro r hr
    rcases List.mem_append.mp hr with hr' | hr'
    · rcases List.mem_map.mp hr' with ⟨a, ha, rfl⟩
      exact hw g (List.mem_cons_self _ _) a (List.mem_of_mem_tail ha)
    · exact ih (i0 + 1) (fun g hg => hw g (List.mem_cons_of_mem _ hg)) r hr'

/-- Filtering the global alias list by one entry index recovers that
entry's aliases, in their original order. -/
theorem globalAlts_filter (glos : List (List Bytes × Bytes)) (i0 k : Nat)
    (hk : k < glos.length) :
    (globalAlts glos i0).filter (fun r => r.2 = i0 + k)
      = (glos.get ⟨k, hk⟩).1.tail.map fun a => (a, i0 + k) := by
  induction glos generalizing i0 k with
  | nil => cases hk
  | cons g rest ih =>
    cases k with
    | zero =>
      simp only [globalAlts, List.filter_append]
      have h1 : (g.1.tail.map fun a => (a, i0)).filter
          (fun r => r.2 = i0 + 0) = g.1.tail.map fun a => (a, i0 + 0) := by
        rw [List.filter_eq_self.mpr]
        · simp
        · intro a ha
          rcases List.mem_map.mp ha with ⟨x, _, rfl⟩
          simp
      have h2 : (globalAlts rest (i0 + 1)).filter
          (fun r => r.2 = i0 + 0) = [] := by
        rw [List.filter_eq_nil]
        intro r hr
        have := globalAlts_tags rest (i0 + 1) r hr
        simp only [decide_eq_true_eq]
        omega
      rw [h1, h2, List.append_nil]
      rfl
    | succ k =>
      simp only [globalAlts, List.filter_append]
      have h1 : (g.1.tail.map fun a => (a, i0)).filter
          (fun r => r.2 = i0 + (k + 1)) = [] := by
        rw [List.filter_eq_nil]
        intro r hr
        rcases List.mem_map.mp hr with ⟨x, _, rfl⟩
        simp only [decide_eq_true_eq]
        omega
      have harith : i0 + (k + 1) = (i0 + 1) + k := by omega
      have h2 := ih (i0 + 1) k (by simpa using Nat.lt_of_succ_lt_succ hk)
      rw [h1, List.nil_append, harith, h2]
      rfl

theorem len_le_defiSum (glos : List (List Bytes × Bytes))
    (h : ∀ g ∈ glos, g.2 ≠ []) :
    glos.length ≤ (glos.map fun g => g.2.length).sum := by
  induction glos with
  | nil => simp
  | cons g rest ih =>
    have h1 : 1 ≤ g.2.length :=
      List.length_pos.mpr (h g (List.mem_cons_self _ _))
    have h2 := ih (fun g hg => h g (List.mem_cons_of_mem _ hg))
    simp only [List.length_cons, List.map_cons, List.sum_cons]
    omega

/-- A compact `"h"` block — the bare UTF-8 definition — parses back to
the single part `(defi, h)` whenever the definition is non-empty and
NUL-free. -/
theorem parseCompact_h (defi : Bytes) (hne : defi ≠ []) (h0 : 0 ∉ defi) :
    parseDefiBlockCompact defi [104] = some [(defi, 104)] := by
  have hlen : ¬ defi.length ≤ 0 := by simpa using hne
  have h : parseDefiBlockCompact defi [104]
      = (if defi.length ≤ 0 then none
        else if 0 ∈ defi then none else some [(defi, 104)]) := rfl
  rw [h, if_neg hlen, if_neg h0]

/-- Rendering the single part `(d, h)` yields `(d, "h")`. -/
theorem render_h (xf : Bytes → Bytes) (fl : Bool) (d : Bytes) :
    renderRawDefiList xf fl [(d, 104)] = (d, "h") := rfl

/-- One step of the reading loop, written out. -/
theorem readerIterGo_cons (xf : Bytes → Bytes) (fl : Bool) (D : Bytes)
    (syn : List (Bytes × Nat)) (seq : Bytes) (w : Bytes) (off sz : Nat)
    (rest : List (Bytes × Nat × Nat)) (i : Nat) :
    readerIterGo xf fl D syn seq ((w, off, sz) :: rest) i
      = (let tail := readerIterGo xf fl D syn seq rest (i + 1)
        if w = [] then tail
        else
          let block := (D.drop off).take sz
          if block.length ≠ sz then tail
          else
            match (if seq.isEmpty then parseDefiBlockGeneral block
                else parseDefiBlockCompact block seq) with
            | none => tail
            | some rawDefiList =>
              let words := w :: synDictLookup syn i
              let r := renderRawDefiList xf fl rawDefiList
              (words, r.1, r.2) :: tail) := rfl

/-- The entries the round trip is expected to produce: for the entry at
index `i`, the written headword with the `.syn` alternates of index `i`
re-attached, the definition, and format `h`. -/
def expectedRT (syn : List (Bytes × Nat)) :
    List (List Bytes × Bytes) → Nat → List (List Bytes × Bytes × String)
  | [], _ => []
  | g :: rest, i =>
    (g.1.headD [] :: synDictLookup syn i, g.2, "h")
      :: expectedRT syn rest (i + 1)

/-- The reading loop over a compact write's `.idx` records, run against
the dict stream those records index into, emits one entry per written
entry: headword, re-attached alternates, definition, format `h`. -/
theorem compactRT_go (glos : List (List Bytes × Bytes)) (D : Bytes)
    (syn : List (Bytes × Nat)) (xf : Bytes → Bytes) (fl : Bool)
    (d0 i0 : Nat)
    (hd0 : D.drop d0 = (glos.map fun g => g.2).flatten)
    (hv : ∀ g ∈ glos, g.1.headD [] ≠ [] ∧ g.2 ≠ [] ∧ 0 ∉ g.2) :
    readerIterGo xf fl D syn [104]
        (writeCompactGo (glos.map fun g => WInput.entry g.1 g.2 "h")
          d0 i0).idx i0
      = expectedRT syn glos i0 := by
  induction glos generalizing d0 i0 with
  | nil => rfl
  | cons g rest ih =>
    obtain ⟨hhead, hdne, hd0nul⟩ := hv g (List.mem_cons_self _ _)
    have hflat : ((g :: rest).map fun g => g.2).flatten
        = g.2 ++ (rest.map fun g => g.2).flatten := by simp
    have hblock : (D.drop d0).take g.2.length = g.2 := by
      rw [hd0, hflat]
      exact List.take_left g.2 _
    have hrest : D.drop (d0 + g.2.length)
        = (rest.map fun g => g.2).flatten := by
      have h1 : D.drop (d0 + g.2.length) = (D.drop d0).drop g.2.length := by
        rw [List.drop_drop]
      rw [h1, hd0, hflat]
      exact List.drop_left g.2 _
    have hidx : (writeCompactGo ((g :: rest).map fun g =>
          WInput.entry g.1 g.2 "h") d0 i0).idx
        = (g.1.headD [], d0, g.2.length)
          :: (writeCompactGo (rest.map fun g => WInput.entry g.1 g.2 "h")
            (d0 + g.2.length) (i0 + 1)).idx := rfl
    have hparse : parseDefiBlockCompact g.2 [104] = some [(g.2, 104)] :=
      parseCompact_h g.2 hdne hd0nul
    have htail := ih (d0 + g.2.length) (i0 + 1) hrest
      (fun g hg => hv g (List.mem_cons_of_mem _ hg))
    rw [hidx, readerIterGo_cons]
    simp only [hblock, htail, List.isEmpty_cons, Bool.false_eq_true,
      if_false, hparse, render_h, ne_eq, not_true_eq_false, if_neg hhead]
    rfl

/-- Re-attaching the expected alternates: `expectedRT` satisfies the
round-trip relation whenever the alternates looked up for each index are
a permutation of that entry's aliases. -/
theorem expectedRT_forall₂ (syn : List (Bytes × Nat))
    (glos : List (List Bytes × Bytes)) (i0 : Nat)
    (hperm : ∀ k (hk : k < glos.length),
      (synDictLookup syn (i0 + k)).Perm (glos.get ⟨k, hk⟩).1.tail) :
    List.Forall₂ (fun (r : List Bytes × Bytes × String)
        (g : List Bytes × Bytes) =>
        (∃ alts, r.1 = g.1.headD [] :: alts ∧ alts.Perm g.1.tail)
        ∧ r.2.1 = g.2 ∧ r.2.2 = "h")
      (expectedRT syn glos i0) glos := by
  induction glos generalizing i0 with
  | nil => exact List.Forall₂.nil
  | cons g rest ih =>
    refine List.forall₂_cons.mpr ⟨⟨⟨synDictLookup syn i0, rfl, ?_⟩,
      rfl, rfl⟩, ?_⟩
    · have h0 := hperm 0 (by simp)
      simpa using h0
    · refine ih (i0 + 1) ?_
      intro k hk
      have hk' : k + 1 < (g :: rest).length := by
        simp only [List.length_cons]
        omega
      have h1 := hperm (k + 1) hk'
      have harith : i0 + (k + 1) = (i0 + 1) + k := by omega
      rw [harith] at h1
      exact h1

/-- **C2, confirmed** for the compact layout with a separate `.syn`
(`sametypesequence = "h"`, `merge_syns` off, default fix options, no
data entries).  Writing a glossary and reading back the produced
`.idx`/`.dict`/`.syn` bytes yields, entry for entry in order: the same
canonical headword, the same definition and the same format (`"h"`),
with the alias headwords re-attached to their entry from the `.syn`
records — the same aliases up to the `.syn` file's case-folded order.
An absent `.syn` (no aliases at all) is the empty byte string here,
which parses to no records, exactly as `readSynFile` treats a missing
file. -/
theorem claim_C2 (glos : List (List Bytes × Bytes)) (xf : Bytes → Bytes)
    (fl : Bool)
    (hwords : ∀ g ∈ glos, g.1.headD [] ≠ [] ∧ ∀ w ∈ g.1, (0 : Nat) ∉ w)
    (hdefi : ∀ g ∈ glos, g.2 ≠ [] ∧ 0 ∉ g.2)
    (hsize : ((glos.map fun g => g.2.length).sum) < 2 ^ 32) :
    List.Forall₂ (fun (r : List Bytes × Bytes × String)
        (g : List Bytes × Bytes) =>
        (∃ alts, r.1 = g.1.headD [] :: alts ∧ alts.Perm g.1.tail)
        ∧ r.2.1 = g.2 ∧ r.2.2 = "h")
      (readerIter xf fl
        (readIdxFile (idxFileBytes
          (writeCompact (glos.map fun g => WInput.entry g.1 g.2 "h")).idx))
        (writeCompact (glos.map fun g => WInput.entry g.1 g.2 "h")).dict
        (readSynFile
          ((writeSynFileRecords
            (writeCompact (glos.map fun g =>
              WInput.entry g.1 g.2 "h")).altIndexList).map
            synRecordBytes).flatten
          (readIdxFile (idxFileBytes
            (writeCompact (glos.map fun g =>
              WInput.entry g.1 g.2 "h")).idx)).length)
        [104])
      glos := by
  have hne : ∀ g ∈ glos, g.1 ≠ [] := by
    intro g hg hc
    exact (hwords g hg).1 (by rw [hc]; rfl)
  have hcount : glos.length < 2 ^ 32 := by
    have := len_le_defiSum glos (fun g hg => (hdefi g hg).1)
    omega
  -- the .idx round trip
  have hidxRT : readIdxFile (idxFileBytes
      (writeCompact (glos.map fun g => WInput.entry g.1 g.2 "h")).idx)
      = (writeCompact (glos.map fun g => WInput.entry g.1 g.2 "h")).idx :=
    readIdxFile_roundtrip _
      (writeCompactGo_idx_valid glos 0 0
        (fun g hg => (hwords g hg).2) hne (by omega))
  -- every queued alias record is NUL-free with an in-range index
  have hperm0 : ∀ r ∈ writeSynFileRecords
      (writeCompact (glos.map fun g =>
        WInput.entry g.1 g.2 "h")).altIndexList,
      r ∈ globalAlts glos 0 := by
    intro r hr
    have hperm := sortStable_perm (@sortKeyLe Nat)
      (writeCompact (glos.map fun g =>
        WInput.entry g.1 g.2 "h")).altIndexList
    have := hperm.mem_iff.mp hr
    rwa [writeCompact, writeCompactGo_alt] at this
  have haltmem : ∀ r ∈ writeSynFileRecords
      (writeCompact (glos.map fun g =>
        WInput.entry g.1 g.2 "h")).altIndexList,
      0 ∉ r.1 ∧ r.2 < 2 ^ 32 := by
    intro r hr
    have hr' := hperm0 r hr
    refine ⟨globalAlts_mem glos 0 (fun g hg => (hwords g hg).2) r hr', ?_⟩
    have := (globalAlts_tags glos 0 r hr').2
    omega
  -- the .syn round trip
  have hsynRT : readSynFileRecords
      ((writeSynFileRecords (writeCompact (glos.map fun g =>
          WInput.entry g.1 g.2 "h")).altIndexList).map
        synRecordBytes).flatten
      = writeSynFileRecords (writeCompact (glos.map fun g =>
          WInput.entry g.1 g.2 "h")).altIndexList :=
    readSynFileRecords_roundtrip _ haltmem
  have hwc : (readIdxFile (idxFileBytes
      (writeCompact (glos.map fun g =>
        WInput.entry g.1 g.2 "h")).idx)).length = glos.length := by
    rw [hidxRT, writeCompact, writeCompactGo_idx_length]
  have hsynfile : readSynFile
      ((writeSynFileRecords (writeCompact (glos.map fun g =>
          WInput.entry g.1 g.2 "h")).altIndexList).map
        synRecordBytes).flatten
      (readIdxFile (idxFileBytes
        (writeCompact (glos.map fun g =>
          WInput.entry g.1 g.2 "h")).idx)).length
      = writeSynFileRecords (writeCompact (glos.map fun g =>
          WInput.entry g.1 g.2 "h")).altIndexList := by
    unfold readSynFile
    rw [hsynRT, hwc]
    refine List.filter_eq_self.mpr ?_
    intro r hr
    have := (globalAlts_tags glos 0 r (hperm0 r hr)).2
    simp only [decide_eq_true_eq]
    omega
  rw [hsynfile, hidxRT]
  unfold readerIter writeCompact
  have hmain := compactRT_go glos
    (writeCompactGo (glos.map fun g => WInput.entry g.1 g.2 "h") 0 0).dict
    (writeSynFileRecords (writeCompactGo (glos.map fun g =>
      WInput.entry g.1 g.2 "h") 0 0).altIndexList)
    xf fl 0 0
    (by rw [List.drop_zero, writeCompactGo_dict])
    (fun g hg => ⟨(hwords g hg).1, (hdefi g hg).1, (hdefi g hg).2⟩)
  rw [hmain]
  -- the alternates of entry k are a permutation of its aliases
  refine expectedRT_forall₂ _ glos 0 ?_
  intro k hk
  unfold synDictLookup
  have hfsort : ((sortStable sortKeyLe (writeCompactGo (glos.map fun g =>
      WInput.entry g.1 g.2 "h") 0 0).altIndexList).filter
        (fun r => r.2 = 0 + k)).Perm
      (((writeCompactGo (glos.map fun g =>
        WInput.entry g.1 g.2 "h") 0 0).altIndexList).filter
        (fun r => r.2 = 0 + k)) :=
    (sortStable_perm _ _).filter _
  have heq : ((((writeCompactGo (glos.map fun g =>
      WInput.entry g.1 g.2 "h") 0 0).altIndexList).filter
        (fun r => r.2 = 0 + k)).map fun r : Bytes × Nat => r.1)
      = (glos.get ⟨k, hk⟩).1.tail := by
    rw [writeCompactGo_alt, globalAlts_filter glos 0 k hk, List.map_map]
    exact List.map_id'' (fun x => rfl) _
  exact List.Perm.trans (hfsort.map _) (heq ▸ List.Perm.refl _)

/-- Concrete round trip: two entries, the second with alias `c` for
headword `a`; the read-back entries carry the same words, definitions
and format. -/
theorem claim_C2_witness :
    (∀ g ∈ [([[98]], [49]), ([[97], [99]], [50])], g.1.headD [] ≠ []
        ∧ ∀ w ∈ g.1, (0 : Nat) ∉ w)
    ∧ List.Forall₂ (fun (r : List Bytes × Bytes × String)
        (g : List Bytes × Bytes) =>
        (∃ alts, r.1 = g.1.headD [] :: alts ∧ alts.Perm g.1.tail)
        ∧ r.2.1 = g.2 ∧ r.2.2 = "h")
      (readerIter (fun b => b) true
        (readIdxFile (idxFileBytes
          (writeCompact ([([[98]], [49]), ([[97], [99]], [50])].map
            fun g => WInput.entry g.1 g.2 "h")).idx))
        (writeCompact ([([[98]], [49]), ([[97], [99]], [50])].map
          fun g => WInput.entry g.1 g.2 "h")).dict
        (readSynFile
          ((writeSynFileRecords
            (writeCompact ([([[98]], [49]), ([[97], [99]], [50])].map
              fun g => WInput.entry g.1 g.2 "h")).altIndexList).map
            synRecordBytes).flatten
          (readIdxFile (idxFileBytes
            (writeCompact ([([[98]], [49]), ([[97], [99]], [50])].map
              fun g => WInput.entry g.1 g.2 "h")).idx)).length)
        [104])
      [([[98]], [49]), ([[97], [99]], [50])] :=
  ⟨by decide,
    claim_C2 [([[98]], [49]), ([[97], [99]], [50])] (fun b => b) true
      (by decide) (by decide) (by decide)⟩

end PyGlossary
